import Mathlib

/-
Verification of the roll-point raffle core (parser, winner selector, record
builder, message generator, aggregator, export table, view filter).

JavaScript strings are modelled as `List Char`, JavaScript numbers appearing
in the core as mathematical integers (`Int`; roll values, amounts and money
are integral in the data model), and fallible operations as `Option`.
Environment effects (id generation, the current time, locale-dependent date
formatting) are modelled as explicit inputs.
-/

set_option maxHeartbeats 1000000

/-- Characters of a string literal; used to model JavaScript strings as lists of characters. -/
def cs (s : String) : List Char := s.toList

/-- JavaScript whitespace: the character class matched by the regex escape for
whitespace and removed by `String.prototype.trim`. -/
def isJsSpace (c : Char) : Bool :=
  let n := c.toNat
  n = 0x09 || n = 0x0a || n = 0x0b || n = 0x0c || n = 0x0d || n = 0x20 ||
  n = 0xa0 || n = 0x1680 || (0x2000 ≤ n && n ≤ 0x200a) || n = 0x2028 ||
  n = 0x2029 || n = 0x202f || n = 0x205f || n = 0x3000 || n = 0xfeff

/-- Model of splitting a string on the newline character, as in `input.split('\n')`. -/
def splitNl : List Char → List (List Char)
  | [] => [[]]
  | c :: rest =>
    if c = '\n' then [] :: splitNl rest
    else
      match splitNl rest with
      | [] => [[c]]
      | l :: ls => (c :: l) :: ls

/-- Model of `String.prototype.trim`. -/
def trimChars (l : List Char) : List Char :=
  ((l.dropWhile isJsSpace).reverse.dropWhile isJsSpace).reverse

/-- Model of `Array.prototype.join` with a separator. -/
def joinSep (sep : List Char) : List (List Char) → List Char
  | [] => []
  | [x] => x
  | x :: y :: xs => x ++ sep ++ joinSep sep (y :: xs)

/-- Model of `String.prototype.includes`: `p` occurs as a contiguous substring. -/
def containsSub (p : List Char) : List Char → Bool
  | [] => p.isEmpty
  | c :: t => p.isPrefixOf (c :: t) || containsSub p t

/-- Decimal rendering of a natural number, as in JavaScript template interpolation. -/
def natChars (n : Nat) : List Char := Nat.toDigits 10 n

/-- Decimal rendering of an integer, as in JavaScript template interpolation. -/
def intChars (i : Int) : List Char :=
  if i < 0 then '-' :: natChars i.natAbs else natChars i.natAbs

/-- Value of a digit string, as computed by `parseInt(_, 10)` on an all-digit capture. -/
def digitsVal (ds : List Char) : Nat :=
  ds.foldl (fun a c => a * 10 + (c.toNat - 48)) 0

-- -------------------- data model --------------------

/-- The two winner-selection strategies (`pickStrategy` in the source). -/
inductive Strategy where
  | max
  | min
deriving DecidableEq

/-- One participant roll: `CustomerRoll` in the source. -/
structure CustomerRoll where
  customerId : List Char
  rollValue : Int
deriving DecidableEq

/-- `TransactionRecord` from the source.  `time` is an opaque timestamp. -/
structure TransactionRecord where
  id : List Char
  time : Nat
  customers : List CustomerRoll
  selectedCustomers : List CustomerRoll
  selectedCustomer : Option CustomerRoll
  staffId : List Char
  serviceName : List Char
  amount : Int
  money : Int
  refusalType : List Char
  pickStrategy : Strategy
  winnerCount : Int
deriving DecidableEq

/-- A JavaScript value stored in the refusal summary.  The bump expression of
the aggregator stores numbers (the counts), but for a refusal type that
shadows an inherited `Object.prototype` member the truthy inherited function
makes the `+ 1` a string concatenation, so strings can be stored too. -/
inductive JsVal where
  | num (n : Nat)
  | str (s : List Char)
deriving DecidableEq

/-- Template rendering of a stored summary value. -/
def jsValChars : JsVal → List Char
  | .num n => natChars n
  | .str s => s

/-- Whether a stored summary value is a number. -/
def isNumVal : JsVal → Bool
  | .num _ => true
  | .str _ => false

/-- The numeric content of a stored summary value (zero for a string). -/
def jsValNum : JsVal → Nat
  | .num n => n
  | .str _ => 0

/-- `StaffStat` from the source.  The refusal summary is the insertion-ordered
own-property list of the plain refusal-type-to-count object. -/
structure StaffStat where
  staffId : List Char
  serviceName : List Char
  totalCount : Int
  transactionCount : Nat
  totalMoney : Int
  refusalSummary : List (List Char × JsVal)
  salary : Int
deriving DecidableEq

/-- `RollResultSummary` from the source (the public guest projection). -/
structure RollResultSummary where
  transactionTime : List Char
  customerRolls : List Char
  selected : List Char
  staffId : List Char
  serviceName : List Char
  amount : Int
  money : Int
deriving DecidableEq

/-- The staff view row: every `TransactionRecord` field, with `time` replaced by
its localized display string, as produced by the staff branch of `filterRecordsForView`. -/
structure StaffRow where
  id : List Char
  time : List Char
  customers : List CustomerRoll
  selectedCustomers : List CustomerRoll
  selectedCustomer : Option CustomerRoll
  staffId : List Char
  serviceName : List Char
  amount : Int
  money : Int
  refusalType : List Char
  pickStrategy : Strategy
  winnerCount : Int
deriving DecidableEq

/-- The role tag accepted by `filterRecordsForView`. -/
inductive Role where
  | manager
  | staff
  | guest
deriving DecidableEq

/-- The heterogeneous output rows of `filterRecordsForView` (an `any[]` in the
source), as a tagged union with one constructor per role. -/
inductive ViewRow where
  | full (r : TransactionRecord)
  | own (r : StaffRow)
  | pub (s : RollResultSummary)
deriving DecidableEq

/-- A cell of the export table (`string | number` in the source). -/
inductive Cell where
  | str (s : List Char)
  | num (n : Int)
deriving DecidableEq

-- -------------------- roll-line parser --------------------

/-- Match one of the verb alternatives of the roll regex at the head of the
list, returning the rest.  The alternatives are the two CJK throw verbs and
the two exact-case spellings of the English verb. -/
def dropVerb (l : List Char) : Option (List Char) :=
  if (cs "掷").isPrefixOf l then some (l.drop 1)
  else if (cs "擲").isPrefixOf l then some (l.drop 1)
  else if (cs "roll").isPrefixOf l then some (l.drop 4)
  else if (cs "ROLL").isPrefixOf l then some (l.drop 4)
  else none

/-- Consume one optional particle character, as the optional groups of the regex do. -/
def dropMark (c : Char) (l : List Char) : List Char :=
  match l with
  | [] => []
  | d :: rest => if d = c then rest else l

/-- Match the part of the roll regex that follows the lazily captured name:
optional whitespace, a verb, the optional particles, optional whitespace, a
run of one to four digits, optional whitespace and the CJK points marker.
Backtracking cannot rescue a failure here (the verbs, particles and marker
all begin with non-space non-digit characters), so the greedy reading is
exact.  Returns the digit capture. -/
def matchTail (rest : List Char) : Option (List Char) :=
  match dropVerb (rest.dropWhile isJsSpace) with
  | none => none
  | some r1 =>
    let r2 := dropMark '出' r1
    let r3 := dropMark '了' r2
    let r4 := r3.dropWhile isJsSpace
    let ds := r4.takeWhile Char.isDigit
    if ds.length = 0 ∨ 4 < ds.length then none
    else
      match (r4.drop ds.length).dropWhile isJsSpace with
      | '点' :: _ => some ds
      | _ => none

/-- The lazy one-or-more-character name capture: try the shortest non-empty
prefix first, extending one character at a time, exactly as the lazy dot-plus
group backtracks.  The dot never matches a newline.  Returns the name capture
and the digit capture. -/
def findRollMatch (acc : List Char) : List Char → Option (List Char × List Char)
  | [] => none
  | c :: rest =>
    if c = '\n' then none
    else
      match matchTail rest with
      | some ds => some (acc ++ [c], ds)
      | none => findRollMatch (acc ++ [c]) rest

/-- Model of `line.match(rollRegex)`, anchored at the start of the line. -/
def rollLineMatch (line : List Char) : Option (List Char × List Char) :=
  findRollMatch [] line

/-- The noise test of the parser: the line contains the maximum annotation
opener, with either the full-width or the ASCII parenthesis. -/
def containsMaxAnn (l : List Char) : Bool :=
  containsSub (cs "（最大") l || containsSub (cs "(最大") l

/-- Opening characters of the leading-tag class of the name cleanup regex. -/
def isOpenB (c : Char) : Bool :=
  c = '[' || c = '(' || c = '（' || c = '【' || c = '<'

/-- Closing characters of the leading-tag class of the name cleanup regex. -/
def isCloseB (c : Char) : Bool :=
  c = ']' || c = ')' || c = '）' || c = '】' || c = '>'

/-- Strip one leading bracketed tag (an opening bracket, one or more
non-closing characters, a closing bracket, then optional whitespace).  The
replacing regex is anchored at the start, so despite its global flag it can
fire at most once. -/
def stripLeadingTag (l : List Char) : List Char :=
  match l with
  | [] => []
  | c :: rest =>
    if isOpenB c then
      let run := rest.takeWhile (fun x => !(isCloseB x))
      if run.length = 0 then c :: rest
      else
        match rest.drop run.length with
        | [] => c :: rest
        | d :: r2 => if isCloseB d then r2.dropWhile isJsSpace else c :: rest
    else c :: rest

/-- The word-character class kept by the edge cleanup: the CJK unified block,
ASCII letters and digits, underscore, hyphen and space. -/
def isWordChar (c : Char) : Bool :=
  (0x4e00 ≤ c.toNat && c.toNat ≤ 0x9fa5) ||
  ('A' ≤ c && c ≤ 'Z') || ('a' ≤ c && c ≤ 'z') || c.isDigit ||
  c = '_' || c = '-' || c = ' '

/-- Strip the maximal runs of non-word characters from both ends of the name. -/
def stripEdgeNonWord (l : List Char) : List Char :=
  ((l.dropWhile (fun c => !(isWordChar c))).reverse.dropWhile
      (fun c => !(isWordChar c))).reverse

/-- Parse one already trimmed line of the paste, as the body of the map inside
`parseBatchCustomerRolls` does: regex match, maximum-annotation rejection,
name cleanup, then the emptiness test.  The digit capture always parses, so
the `Number.isNaN` test of the source can never fire. -/
def parseLine (line : List Char) : Option CustomerRoll :=
  match rollLineMatch line with
  | none => none
  | some (rawName, ds) =>
    if containsMaxAnn line then none
    else
      let customerId := trimChars (stripEdgeNonWord (stripLeadingTag rawName))
      if customerId.length = 0 then none
      else some ⟨customerId, (digitsVal ds : Int)⟩

/-- `parseBatchCustomerRolls` from the source: split on newlines, trim, drop
blank lines, parse each line, drop the failures. -/
def parseBatchCustomerRolls (input : List Char) : List CustomerRoll :=
  (((splitNl input).map trimChars).filter (fun l => !l.isEmpty)).filterMap parseLine

-- -------------------- winner selector and record builder --------------------

/-- The sort comparator of `pickCustomersByRoll` as a boolean precedence
relation: `rollLe pick a b` holds when the comparator allows `a` to stay
before `b` (comparator value at most zero). -/
def rollLe (pick : Strategy) (a b : CustomerRoll) : Bool :=
  match pick with
  | .max => decide (b.rollValue ≤ a.rollValue)
  | .min => decide (a.rollValue ≤ b.rollValue)

/-- Insert an element into a sorted list before the first element it may
precede; the building block of the stable sort. -/
def insertRoll (le : CustomerRoll → CustomerRoll → Bool) (a : CustomerRoll) :
    List CustomerRoll → List CustomerRoll
  | [] => [a]
  | b :: l => if le a b then a :: b :: l else b :: insertRoll le a l

/-- Stable sort by the given precedence, modelling `Array.prototype.sort`
(guaranteed stable) with the roll comparator. -/
def sortRolls (le : CustomerRoll → CustomerRoll → Bool) :
    List CustomerRoll → List CustomerRoll
  | [] => []
  | a :: l => insertRoll le a (sortRolls le l)

/-- `pickCustomersByRoll` from the source. -/
def pickCustomersByRoll (customers : List CustomerRoll) (pick : Strategy)
    (winnerCount : Int) : List CustomerRoll :=
  if customers.isEmpty ∨ winnerCount ≤ 0 then []
  else (sortRolls (rollLe pick) customers).take winnerCount.toNat

/-- `createTransactionRecord` from the source.  The generated id and the
current timestamp are environment effects and enter as the explicit inputs
`newId` and `now`. -/
def createTransactionRecord (customers : List CustomerRoll)
    (staffId serviceName : List Char) (amount money : Int)
    (refusalType : List Char) (pickStrategy : Strategy) (winnerCount : Int)
    (newId : List Char) (now : Nat) : TransactionRecord :=
  let selectedCustomers := pickCustomersByRoll customers pickStrategy winnerCount
  { id := newId
    time := now
    customers := customers
    selectedCustomers := selectedCustomers
    selectedCustomer := selectedCustomers.head?
    staffId := staffId
    serviceName := serviceName
    amount := amount
    money := money
    refusalType := refusalType
    pickStrategy := pickStrategy
    winnerCount := winnerCount }

-- -------------------- message generator --------------------

/-- The recognized "no refusal" sentinel value. -/
def noRefusal : List Char := cs "无拒接"

/-- The fixed notice returned when no customer was selected. -/
def noticeStr : List Char := cs "本次未筛选出符合条件的顾客，请检查输入数据或名额数量。"

/-- The extremity wording chosen from the pick strategy. -/
def genPickText (p : Strategy) : List Char :=
  match p with
  | .max => cs "最高"
  | .min => cs "最低"

/-- One numbered winner entry of the result message. -/
def winnerEntry (idx : Nat) (c : CustomerRoll) : List Char :=
  natChars (idx + 1) ++ cs ". " ++ c.customerId ++ cs "（" ++
    intChars c.rollValue ++ cs "点）"

/-- The joined winner listing of the result message. -/
def winnerLines (sel : List CustomerRoll) : List Char :=
  joinSep (cs "；") (sel.enum.map (fun ic => winnerEntry ic.1 ic.2))

/-- `generateRollResultMessage` from the source.  The string truthiness tests
of the source become non-emptiness tests, and the number truthiness test on
the money becomes a non-zero test. -/
def generateRollResultMessage (tr : TransactionRecord) : List Char :=
  if tr.selectedCustomers.length = 0 then noticeStr
  else
    let pickText := genPickText tr.pickStrategy
    let wl := winnerLines tr.selectedCustomers
    let staffText :=
      if tr.staffId.length ≠ 0 then cs "[" ++ tr.staffId ++ cs "]"
      else cs "（未填写）"
    let serviceText :=
      if tr.serviceName.length ≠ 0 then tr.serviceName else cs "（未填写）"
    cs "本次 roll 点结束！共选出 " ++ natChars tr.selectedCustomers.length ++
      cs " 位顾客：" ++ wl ++ cs "。" ++
    cs "\n老师 " ++ staffText ++ cs " 将提供 [" ++ serviceText ++
      cs "] 服务，名额：" ++ intChars tr.amount ++ cs "。" ++
    cs "\n取点规则：" ++ pickText ++ cs "点优先。请" ++
      natChars tr.selectedCustomers.length ++ cs "位大人稍后等待我私聊。" ++
    (if tr.money ≠ 0 then
        cs "\n交易金额：" ++ intChars tr.money ++ cs " 金币（或等价单位）。"
      else []) ++
    (if tr.refusalType.length ≠ 0 ∧ tr.refusalType ≠ noRefusal then
        cs "\n拒接类型：" ++ tr.refusalType ++ cs "（已协调）。"
      else [])

-- -------------------- view projections --------------------

/-- The `name(value)` rendering used by the public summary. -/
def renderRoll (c : CustomerRoll) : List Char :=
  c.customerId ++ cs "(" ++ intChars c.rollValue ++ cs ")"

/-- `mapToPublicRollResult` from the source.  The locale-dependent
`toLocaleTimeString` is an environment effect, modelled by the explicit
formatting function `fmtT`. -/
def mapToPublicRollResult (fmtT : Nat → List Char) (tr : TransactionRecord) :
    RollResultSummary :=
  { transactionTime := fmtT tr.time
    customerRolls := joinSep (cs "、") (tr.customers.map renderRoll)
    selected := joinSep (cs "、") (tr.selectedCustomers.map renderRoll)
    staffId := tr.staffId
    serviceName := tr.serviceName
    amount := tr.amount
    money := tr.money }

/-- The staff-branch projection: all record fields spread unchanged, with the
time replaced by its localized rendering `fmtDT` (the locale-dependent
`toLocaleString` modelled as an explicit input). -/
def toStaffRow (fmtDT : Nat → List Char) (r : TransactionRecord) : StaffRow :=
  { id := r.id
    time := fmtDT r.time
    customers := r.customers
    selectedCustomers := r.selectedCustomers
    selectedCustomer := r.selectedCustomer
    staffId := r.staffId
    serviceName := r.serviceName
    amount := r.amount
    money := r.money
    refusalType := r.refusalType
    pickStrategy := r.pickStrategy
    winnerCount := r.winnerCount }

/-- `filterRecordsForView` from the source.  A missing viewer id is `none`;
the strict equality of the source compares the staff id with the possibly
undefined viewer id, which is false when the id is missing.  The unreachable
default branch of the source needs no counterpart: the role type is closed. -/
def filterRecordsForView (records : List TransactionRecord) (role : Role)
    (viewerId : Option (List Char)) (fmtDT fmtT : Nat → List Char) :
    List ViewRow :=
  match role with
  | .manager => records.map ViewRow.full
  | .staff =>
    (records.filter (fun r => decide (some r.staffId = viewerId))).map
      (fun r => ViewRow.own (toStaffRow fmtDT r))
  | .guest => records.map (fun r => ViewRow.pub (mapToPublicRollResult fmtT r))

-- -------------------- aggregator --------------------

/-- The map key of the aggregation: staff id, the two-bar separator, service name. -/
def aggKey (r : TransactionRecord) : List Char :=
  r.staffId ++ cs "||" ++ r.serviceName

/-- The key under which a stat entry is stored.  The entry's own staff id and
service name are those of the first record of its group, so they reproduce
the stored key exactly. -/
def statKey (s : StaffStat) : List Char :=
  s.staffId ++ cs "||" ++ s.serviceName

/-- `Math.round(money * 0.5)` on an integral money value: halving by two is
exact in binary floating point and rounding takes halves toward positive
infinity, so the result is the floor of `(money + 1) / 2`. -/
def roundHalfMoney (m : Int) : Int := (m + 1).fdiv 2

/-- The data-property names a plain object literal inherits from
`Object.prototype`: reading one of these as an absent key yields the
inherited function rather than undefined. -/
def protoDataKeys : List (List Char) :=
  [cs "constructor", cs "toString", cs "toLocaleString", cs "valueOf",
   cs "hasOwnProperty", cs "isPrototypeOf", cs "propertyIsEnumerable",
   cs "__defineGetter__", cs "__defineSetter__", cs "__lookupGetter__",
   cs "__lookupSetter__"]

/-- ToPrimitive rendering of the function inherited through an absent key.
The exact source text is implementation-defined; no theorem of this
development depends on this rendering. -/
def protoFnChars (k : List Char) : List Char :=
  if k = cs "constructor" then cs "function Object() { [native code] }"
  else cs "function " ++ k ++ cs "() { [native code] }"

/-- Read an own property of the summary object. -/
def getOwn (k : List Char) : List (List Char × JsVal) → Option JsVal
  | [] => none
  | (k', v') :: rest => if k' = k then some v' else getOwn k rest

/-- Write an own property, keeping an existing key in place and appending a
new key at the end, as plain-object assignment does. -/
def setOwn (k : List Char) (v : JsVal) :
    List (List Char × JsVal) → List (List Char × JsVal)
  | [] => [(k, v)]
  | (k', v') :: rest =>
    if k' = k then (k', v) :: rest else (k', v') :: setOwn k v rest

/-- Evaluate `(v || 0) + 1` on an own summary value: a non-zero number
increments, a non-empty string concatenates the character "1", and the falsy
values fall back to the count one. -/
def bumpOwn (v : JsVal) : JsVal :=
  match v with
  | .num n => if n = 0 then .num 1 else .num (n + 1)
  | .str s => if s = [] then .num 1 else .str (s ++ cs "1")

/-- One step of `refusalSummary[k] = (refusalSummary[k] || 0) + 1` on the
plain object literal.  An own value is bumped in place; an absent ordinary
key stores the count one; an absent key naming an inherited
`Object.prototype` data property reads the truthy inherited function, so the
`+ 1` stores its rendering with "1" appended instead of a count; and
`__proto__` reaches the inherited accessor, whose setter ignores the
primitive right-hand side, so nothing is ever stored under it. -/
def bumpRefusal (k : List Char) (l : List (List Char × JsVal)) :
    List (List Char × JsVal) :=
  if k = cs "__proto__" then l
  else
    match getOwn k l with
    | some v => setOwn k (bumpOwn v) l
    | none =>
      if k ∈ protoDataKeys then setOwn k (.str (protoFnChars k ++ cs "1")) l
      else setOwn k (.num 1) l

/-- The zeroed stat entry created when a key is first seen. -/
def freshStat (r : TransactionRecord) : StaffStat :=
  { staffId := r.staffId
    serviceName := r.serviceName
    totalCount := 0
    transactionCount := 0
    totalMoney := 0
    refusalSummary := []
    salary := 0 }

/-- Fold one record into its stat entry, as the loop body of
`aggregateStaffStats` does. -/
def accumulateRecord (r : TransactionRecord) (s : StaffStat) : StaffStat :=
  { s with
    totalCount := s.totalCount + r.amount
    transactionCount := s.transactionCount + 1
    totalMoney := s.totalMoney + r.money
    refusalSummary := bumpRefusal r.refusalType s.refusalSummary
    salary := s.salary + roundHalfMoney r.money }

/-- Process one record against the insertion-ordered entry list, updating the
entry with the matching key in place or appending a fresh one, as the map
set-or-get of the source does. -/
def aggInsert (r : TransactionRecord) : List StaffStat → List StaffStat
  | [] => [accumulateRecord r (freshStat r)]
  | s :: rest =>
    if statKey s = aggKey r then accumulateRecord r s :: rest
    else s :: aggInsert r rest

/-- `aggregateStaffStats` from the source: fold the records in order into an
insertion-ordered entry list (`Array.from(map.values())` preserves insertion
order). -/
def aggregateStaffStats (records : List TransactionRecord) : List StaffStat :=
  records.foldl (fun acc r => aggInsert r acc) []

-- -------------------- export table --------------------

/-- The header row of the export table. -/
def headerRow : List Cell :=
  [Cell.str (cs "店员 ID"), Cell.str (cs "业务名称"), Cell.str (cs "业务数量"),
   Cell.str (cs "交易笔数"), Cell.str (cs "总金额（金币）"), Cell.str (cs "拒接类型"),
   Cell.str (cs "累计薪资（金币）")]

/-- The refusal-type text of a stat row: every kept type joined with its
count, or the sentinel when the joined text is empty. -/
def refusalText (s : StaffStat) : List Char :=
  let parts :=
    (s.refusalSummary.filter (fun kv => decide (kv.1 ≠ noRefusal))).map
      (fun kv => kv.1 ++ cs "（" ++ jsValChars kv.2 ++ cs " 笔）")
  let joined := joinSep (cs "，") parts
  if joined.length = 0 then noRefusal else joined

/-- One data row of the export table. -/
def statRow (s : StaffStat) : List Cell :=
  [Cell.str s.staffId, Cell.str s.serviceName, Cell.num s.totalCount,
   Cell.num (s.transactionCount : Int), Cell.num s.totalMoney,
   Cell.str (refusalText s), Cell.num s.salary]

/-- The row-building loop of `buildStaffExportTable`, pushing one row per stat
and accumulating the four column totals. -/
def exportLoop : List StaffStat → List (List Cell) → Int → Int → Int → Int →
    List (List Cell) × Int × Int × Int × Int
  | [], rows, tc, tt, tm, ts => (rows, tc, tt, tm, ts)
  | s :: rest, rows, tc, tt, tm, ts =>
    exportLoop rest (rows ++ [statRow s]) (tc + s.totalCount)
      (tt + (s.transactionCount : Int)) (tm + s.totalMoney) (ts + s.salary)

/-- `buildStaffExportTable` from the source: header, one row per stat, then
the totals row. -/
def buildStaffExportTable (stats : List StaffStat) : List (List Cell) :=
  match exportLoop stats [headerRow] 0 0 0 0 with
  | (rows, tc, tt, tm, ts) =>
    rows ++ [[Cell.str (cs "合计"), Cell.str (cs "-"), Cell.num tc, Cell.num tt,
      Cell.num tm, Cell.str (cs "-"), Cell.num ts]]

-- -------------------- auxiliary lemmas: substrings, trimming, lines --------------------

theorem containsSub_char_iff (p l : List Char) : containsSub p l = true ↔ p <:+: l := by
  induction l with
  | nil => simp [containsSub, List.isEmpty_iff, List.infix_nil]
  | cons c t ih =>
    simp [containsSub, List.infix_cons_iff, List.isPrefixOf_iff_prefix, ih]

theorem infix_dropWhile (q : Char → Bool) (c : Char) (pt t : List Char)
    (hc : q c = false) :
    ∀ s : List Char, (c :: pt) <:+: List.dropWhile q (s ++ (c :: pt) ++ t) := by
  intro s
  induction s with
  | nil =>
    rw [List.nil_append, List.cons_append, List.dropWhile_cons_of_neg (by simp [hc])]
    exact ⟨[], t, by simp⟩
  | cons x s ih =>
    rw [List.append_assoc, List.cons_append]
    by_cases hx : q x
    · rw [List.dropWhile_cons_of_pos hx, ← List.append_assoc]
      exact ih
    · rw [List.dropWhile_cons_of_neg hx]
      exact ⟨x :: s, t, by simp [List.append_assoc]⟩

theorem infix_trimChars (c : Char) (pt l : List Char) (h : (c :: pt) <:+: l)
    (hall : ∀ x ∈ c :: pt, isJsSpace x = false) : (c :: pt) <:+: trimChars l := by
  have h1 : (c :: pt) <:+: l.dropWhile isJsSpace := by
    obtain ⟨s, t, rfl⟩ := h
    exact infix_dropWhile isJsSpace c pt t (hall c (by simp)) s
  unfold trimChars
  rw [← List.reverse_infix, List.reverse_reverse]
  obtain ⟨d, dt, hd⟩ := List.exists_cons_of_ne_nil
    (show (c :: pt).reverse ≠ [] by simp)
  have hdmem : d ∈ c :: pt := by
    rw [← List.mem_reverse, hd]; exact List.mem_cons_self d dt
  have h2 : (d :: dt) <:+: (l.dropWhile isJsSpace).reverse := by
    rw [← hd]
    exact List.reverse_infix.mpr h1
  rw [hd]
  obtain ⟨s, t, hst⟩ := h2
  rw [← hst]
  exact infix_dropWhile isJsSpace d dt t (hall d hdmem) s

theorem containsMaxAnn_trimChars (l : List Char) (h : containsMaxAnn l = true) :
    containsMaxAnn (trimChars l) = true := by
  have e1 : cs "（最大" = '（' :: cs "最大" := rfl
  have e2 : cs "(最大" = '(' :: cs "最大" := rfl
  unfold containsMaxAnn at h ⊢
  rw [Bool.or_eq_true] at h ⊢
  rcases h with h1 | h1
  · refine Or.inl ?_
    rw [e1] at h1 ⊢
    exact (containsSub_char_iff _ _).mpr
      (infix_trimChars _ _ _ ((containsSub_char_iff _ _).mp h1) (by decide))
  · refine Or.inr ?_
    rw [e2] at h1 ⊢
    exact (containsSub_char_iff _ _).mpr
      (infix_trimChars _ _ _ ((containsSub_char_iff _ _).mp h1) (by decide))

theorem splitNl_of_no_nl (l : List Char) (h : '\n' ∉ l) : splitNl l = [l] := by
  induction l with
  | nil => rfl
  | cons c t ih =>
    have hc : ¬ c = '\n' := fun e => h (e ▸ List.mem_cons_self c t)
    have ht : '\n' ∉ t := fun m => h (List.mem_cons_of_mem c m)
    simp [splitNl, hc, ih ht]

theorem splitNl_append_nl (a b : List Char) (h : '\n' ∉ a) :
    splitNl (a ++ '\n' :: b) = a :: splitNl b := by
  induction a with
  | nil => simp [splitNl]
  | cons c t ih =>
    have hc : ¬ c = '\n' := fun e => h (e ▸ List.mem_cons_self c t)
    have ht : '\n' ∉ t := fun m => h (List.mem_cons_of_mem c m)
    simp [List.cons_append, splitNl, hc, ih ht]

theorem digitChar_ne_nl (m : Nat) : Nat.digitChar m ≠ '\n' := by
  match m with
  | 0 => decide
  | 1 => decide
  | 2 => decide
  | 3 => decide
  | 4 => decide
  | 5 => decide
  | 6 => decide
  | 7 => decide
  | 8 => decide
  | 9 => decide
  | 10 => decide
  | 11 => decide
  | 12 => decide
  | 13 => decide
  | 14 => decide
  | 15 => decide
  | n+16 =>
    have h : Nat.digitChar (n+16) = '*' := rfl
    rw [h]; decide

theorem no_nl_toDigitsCore :
    ∀ (fuel n : Nat) (ds : List Char), '\n' ∉ ds →
      '\n' ∉ Nat.toDigitsCore 10 fuel n ds := by
  intro fuel
  induction fuel with
  | zero => intro n ds hds h; exact hds h
  | succ f ih =>
    intro n ds hds h
    rw [show Nat.toDigitsCore 10 (f+1) n ds =
        (if n / 10 = 0 then Nat.digitChar (n % 10) :: ds
         else Nat.toDigitsCore 10 f (n / 10) (Nat.digitChar (n % 10) :: ds)) from rfl] at h
    by_cases h0 : n / 10 = 0
    · rw [if_pos h0] at h
      rcases List.mem_cons.mp h with he | hm
      · exact digitChar_ne_nl _ he.symm
      · exact hds hm
    · rw [if_neg h0] at h
      refine ih (n / 10) _ (fun m => ?_) h
      rcases List.mem_cons.mp m with he | hm
      · exact digitChar_ne_nl _ he.symm
      · exact hds hm

theorem no_nl_natChars (n : Nat) : '\n' ∉ natChars n :=
  no_nl_toDigitsCore (n + 1) n [] (by simp)

theorem no_nl_intChars (i : Int) : '\n' ∉ intChars i := by
  unfold intChars
  by_cases h : i < 0
  · rw [if_pos h]
    intro m
    rcases List.mem_cons.mp m with he | hm
    · exact absurd he.symm (by decide)
    · exact no_nl_natChars _ hm
  · rw [if_neg h]
    exact no_nl_natChars _

theorem no_nl_append (a b : List Char) (ha : '\n' ∉ a) (hb : '\n' ∉ b) :
    '\n' ∉ a ++ b := by
  intro m
  rcases List.mem_append.mp m with h | h
  · exact ha h
  · exact hb h

theorem no_nl_joinSep (sep : List Char) (hsep : '\n' ∉ sep) :
    ∀ parts : List (List Char), (∀ p ∈ parts, '\n' ∉ p) → '\n' ∉ joinSep sep parts := by
  intro parts
  induction parts with
  | nil => intro _; simp [joinSep]
  | cons x xs ih =>
    intro hall
    cases xs with
    | nil => simpa [joinSep] using hall x (by simp)
    | cons y ys =>
      rw [show joinSep sep (x :: y :: ys) = x ++ sep ++ joinSep sep (y :: ys) from rfl]
      refine no_nl_append _ _ (no_nl_append _ _ (hall x (by simp)) hsep) ?_
      exact ih (fun p hp => hall p (List.mem_cons_of_mem x hp))

-- -------------------- auxiliary lemmas: the stable sort and the selector --------------------

theorem insertRoll_perm (le : CustomerRoll → CustomerRoll → Bool) (a : CustomerRoll) :
    ∀ l : List CustomerRoll, (insertRoll le a l).Perm (a :: l) := by
  intro l
  induction l with
  | nil => exact List.Perm.refl _
  | cons b l ih =>
    by_cases h : le a b = true
    · simp only [insertRoll, if_pos h]
      exact List.Perm.refl _
    · simp only [insertRoll, if_neg h]
      exact (List.Perm.cons b ih).trans (List.Perm.swap a b l)

theorem sortRolls_perm (le : CustomerRoll → CustomerRoll → Bool) :
    ∀ l : List CustomerRoll, (sortRolls le l).Perm l := by
  intro l
  induction l with
  | nil => exact List.Perm.refl _
  | cons a l ih =>
    exact (insertRoll_perm le a (sortRolls le l)).trans (List.Perm.cons a ih)

theorem insertRoll_mem (le : CustomerRoll → CustomerRoll → Bool)
    (a x : CustomerRoll) (l : List CustomerRoll) :
    x ∈ insertRoll le a l ↔ x = a ∨ x ∈ l := by
  rw [(insertRoll_perm le a l).mem_iff]
  simp

theorem insertRoll_pairwise (le : CustomerRoll → CustomerRoll → Bool)
    (htot : ∀ a b, le a b = true ∨ le b a = true)
    (htrans : ∀ a b c, le a b = true → le b c = true → le a c = true)
    (a : CustomerRoll) :
    ∀ l, l.Pairwise (fun x y => le x y = true) →
      (insertRoll le a l).Pairwise (fun x y => le x y = true) := by
  intro l
  induction l with
  | nil =>
    intro _
    simp [insertRoll]
  | cons b l ih =>
    intro h
    rcases List.pairwise_cons.mp h with ⟨hb, hl⟩
    by_cases hab : le a b = true
    · simp only [insertRoll, if_pos hab]
      refine List.pairwise_cons.mpr ⟨?_, h⟩
      intro y hy
      rcases List.mem_cons.mp hy with rfl | hyl
      · exact hab
      · exact htrans a b y hab (hb y hyl)
    · simp only [insertRoll, if_neg hab]
      refine List.pairwise_cons.mpr ⟨?_, ih hl⟩
      intro y hy
      rcases (insertRoll_mem le a y l).mp hy with he | hyl
      · rw [he]
        rcases htot a b with h1 | h1
        · exact absurd h1 hab
        · exact h1
      · exact hb y hyl

theorem sortRolls_pairwise (le : CustomerRoll → CustomerRoll → Bool)
    (htot : ∀ a b, le a b = true ∨ le b a = true)
    (htrans : ∀ a b c, le a b = true → le b c = true → le a c = true) :
    ∀ l, (sortRolls le l).Pairwise (fun x y => le x y = true) := by
  intro l
  induction l with
  | nil => simp [sortRolls]
  | cons a l ih => exact insertRoll_pairwise le htot htrans a _ ih

theorem insertRoll_filter (le : CustomerRoll → CustomerRoll → Bool)
    (a : CustomerRoll) (v : Int)
    (hne : ∀ b, ¬ le a b = true → ¬ b.rollValue = a.rollValue) :
    ∀ l, (insertRoll le a l).filter (fun x => decide (x.rollValue = v)) =
      (a :: l).filter (fun x => decide (x.rollValue = v)) := by
  intro l
  induction l with
  | nil => rfl
  | cons b l ih =>
    by_cases hab : le a b = true
    · simp only [insertRoll, if_pos hab]
    · simp only [insertRoll, if_neg hab]
      have hb : ¬ b.rollValue = a.rollValue := hne b hab
      by_cases hqa : a.rollValue = v
      · have hqb : ¬ b.rollValue = v := fun e => hb (e.trans hqa.symm)
        simp [List.filter_cons, hqa, hqb, ih]
      · simp [List.filter_cons, hqa, ih]

theorem sortRolls_filter (le : CustomerRoll → CustomerRoll → Bool)
    (hne : ∀ a b, ¬ le a b = true → ¬ b.rollValue = a.rollValue) (v : Int) :
    ∀ l, (sortRolls le l).filter (fun x => decide (x.rollValue = v)) =
      l.filter (fun x => decide (x.rollValue = v)) := by
  intro l
  induction l with
  | nil => rfl
  | cons a l ih =>
    rw [show sortRolls le (a :: l) = insertRoll le a (sortRolls le l) from rfl,
      insertRoll_filter le a v (fun b hb => hne a b hb) (sortRolls le l),
      List.filter_cons, List.filter_cons, ih]

theorem rollLe_total (pick : Strategy) (a b : CustomerRoll) :
    rollLe pick a b = true ∨ rollLe pick b a = true := by
  cases pick <;> simp [rollLe] <;> omega

theorem rollLe_trans (pick : Strategy) (a b c : CustomerRoll) :
    rollLe pick a b = true → rollLe pick b c = true → rollLe pick a c = true := by
  cases pick <;> simp [rollLe] <;> omega

theorem rollLe_false_ne (pick : Strategy) (a b : CustomerRoll)
    (h : ¬ rollLe pick a b = true) : ¬ b.rollValue = a.rollValue := by
  cases pick <;> simp [rollLe] at h ⊢ <;> omega

theorem pickCustomersByRoll_degenerate (customers : List CustomerRoll)
    (pick : Strategy) (wc : Int) (h : customers = [] ∨ wc ≤ 0) :
    pickCustomersByRoll customers pick wc = [] := by
  unfold pickCustomersByRoll
  rcases h with h | h
  · rw [if_pos (Or.inl (by simp [h]))]
  · rw [if_pos (Or.inr h)]

theorem pickCustomersByRoll_eq_take (customers : List CustomerRoll)
    (pick : Strategy) (wc : Int) (hne : customers ≠ []) (hwc : 0 < wc) :
    pickCustomersByRoll customers pick wc =
      (sortRolls (rollLe pick) customers).take wc.toNat := by
  unfold pickCustomersByRoll
  rw [if_neg]
  push_neg
  exact ⟨by simpa [List.isEmpty_iff] using hne, by omega⟩

theorem pickCustomersByRoll_subset (customers : List CustomerRoll)
    (pick : Strategy) (wc : Int) :
    ∀ x ∈ pickCustomersByRoll customers pick wc, x ∈ customers := by
  intro x hx
  unfold pickCustomersByRoll at hx
  split at hx
  · simp at hx
  · exact ((sortRolls_perm (rollLe pick) customers).mem_iff).mp
      (List.take_subset _ _ hx)

theorem pickCustomersByRoll_length (customers : List CustomerRoll)
    (pick : Strategy) (wc : Int) :
    (pickCustomersByRoll customers pick wc).length =
      Nat.min wc.toNat customers.length := by
  unfold pickCustomersByRoll
  split
  next h =>
    rcases h with h | h
    · rw [List.isEmpty_iff] at h
      simp [h]
    · have h0 : wc.toNat = 0 := by omega
      simp [h0]
  next h =>
    rw [List.length_take, (sortRolls_perm (rollLe pick) customers).length_eq]

-- -------------------- auxiliary lemmas: aggregation --------------------

theorem statKey_accumulate (r : TransactionRecord) (s : StaffStat) :
    statKey (accumulateRecord r s) = statKey s := rfl

theorem statKey_fresh (r : TransactionRecord) :
    statKey (accumulateRecord r (freshStat r)) = aggKey r := rfl

theorem aggInsert_map_sum (f : StaffStat → Int) (g : TransactionRecord → Int)
    (hf : ∀ r s, f (accumulateRecord r s) = f s + g r)
    (h0 : ∀ r, f (freshStat r) = 0) (r : TransactionRecord) :
    ∀ acc : List StaffStat,
      ((aggInsert r acc).map f).sum = (acc.map f).sum + g r := by
  intro acc
  induction acc with
  | nil => simp [aggInsert, hf, h0]
  | cons s rest ih =>
    by_cases h : statKey s = aggKey r
    · rw [show aggInsert r (s :: rest) = accumulateRecord r s :: rest from by
        simp [aggInsert, if_pos h]]
      simp only [List.map_cons, List.sum_cons, hf]
      ring
    · rw [show aggInsert r (s :: rest) = s :: aggInsert r rest from by
        simp [aggInsert, if_neg h]]
      simp only [List.map_cons, List.sum_cons, ih]
      ring

theorem aggFold_map_sum (f : StaffStat → Int) (g : TransactionRecord → Int)
    (hf : ∀ r s, f (accumulateRecord r s) = f s + g r)
    (h0 : ∀ r, f (freshStat r) = 0) :
    ∀ (rs : List TransactionRecord) (acc : List StaffStat),
      ((rs.foldl (fun a r => aggInsert r a) acc).map f).sum =
        (acc.map f).sum + (rs.map g).sum := by
  intro rs
  induction rs with
  | nil => intro acc; simp
  | cons r rs ih =>
    intro acc
    rw [List.foldl_cons, ih (aggInsert r acc), aggInsert_map_sum f g hf h0 r acc]
    simp only [List.map_cons, List.sum_cons]
    ring

theorem aggInsert_cases (r : TransactionRecord) :
    ∀ (acc : List StaffStat) (s' : StaffStat), s' ∈ aggInsert r acc →
      (∃ s ∈ acc, s' = accumulateRecord r s) ∨ s' ∈ acc ∨
        s' = accumulateRecord r (freshStat r) := by
  intro acc
  induction acc with
  | nil =>
    intro s' h
    simp [aggInsert] at h
    exact Or.inr (Or.inr h)
  | cons s rest ih =>
    intro s' h
    by_cases hk : statKey s = aggKey r
    · rw [show aggInsert r (s :: rest) = accumulateRecord r s :: rest from by
        simp [aggInsert, if_pos hk]] at h
      rcases List.mem_cons.mp h with he | hm
      · exact Or.inl ⟨s, by simp, he⟩
      · exact Or.inr (Or.inl (List.mem_cons_of_mem s hm))
    · rw [show aggInsert r (s :: rest) = s :: aggInsert r rest from by
        simp [aggInsert, if_neg hk]] at h
      rcases List.mem_cons.mp h with he | hm
      · exact Or.inr (Or.inl (he ▸ List.mem_cons_self s rest))
      · rcases ih s' hm with ⟨s0, hs0, he⟩ | hm2 | he
        · exact Or.inl ⟨s0, List.mem_cons_of_mem s hs0, he⟩
        · exact Or.inr (Or.inl (List.mem_cons_of_mem s hm2))
        · exact Or.inr (Or.inr he)

theorem aggFold_invariant (P : StaffStat → Prop) (R : TransactionRecord → Prop)
    (hP : ∀ r s, R r → P s → P (accumulateRecord r s))
    (h0 : ∀ r, R r → P (accumulateRecord r (freshStat r))) :
    ∀ (rs : List TransactionRecord) (acc : List StaffStat),
      (∀ r ∈ rs, R r) → (∀ s ∈ acc, P s) →
      ∀ s ∈ rs.foldl (fun a r => aggInsert r a) acc, P s := by
  intro rs
  induction rs with
  | nil => intro acc _ hacc s hs; exact hacc s hs
  | cons r rs ih =>
    intro acc hR hacc s hs
    rw [List.foldl_cons] at hs
    refine ih (aggInsert r acc) (fun x hx => hR x (List.mem_cons_of_mem r hx)) ?_ s hs
    intro s' hs'
    rcases aggInsert_cases r acc s' hs' with ⟨s0, hs0, he⟩ | hm | he
    · exact he ▸ hP r s0 (hR r (List.mem_cons_self r rs)) (hacc s0 hs0)
    · exact hacc s' hm
    · exact he ▸ h0 r (hR r (List.mem_cons_self r rs))

/-- The first-seen key-insertion step the aggregation map performs. -/
def insKey (ks : List (List Char)) (k : List Char) : List (List Char) :=
  if k ∈ ks then ks else ks ++ [k]

theorem aggInsert_keys (r : TransactionRecord) :
    ∀ acc : List StaffStat,
      (aggInsert r acc).map statKey = insKey (acc.map statKey) (aggKey r) := by
  intro acc
  induction acc with
  | nil => simp [aggInsert, insKey, statKey_fresh]
  | cons s rest ih =>
    by_cases hk : statKey s = aggKey r
    · rw [show aggInsert r (s :: rest) = accumulateRecord r s :: rest from by
        simp [aggInsert, if_pos hk]]
      have hmem : aggKey r ∈ (s :: rest).map statKey := by
        simp only [List.map_cons, List.mem_cons]
        exact Or.inl hk.symm
      rw [insKey, if_pos hmem]
      simp [List.map_cons, statKey_accumulate]
    · rw [show aggInsert r (s :: rest) = s :: aggInsert r rest from by
        simp [aggInsert, if_neg hk]]
      have hne : ¬ aggKey r = statKey s := fun e => hk e.symm
      by_cases hmem : aggKey r ∈ rest.map statKey
      · have hmem2 : aggKey r ∈ (s :: rest).map statKey := by
          simp only [List.map_cons, List.mem_cons]
          exact Or.inr hmem
        rw [insKey, if_pos hmem2]
        simp only [List.map_cons, ih, insKey, if_pos hmem]
      · have hmem2 : aggKey r ∉ (s :: rest).map statKey := by
          simp only [List.map_cons, List.mem_cons]
          push_neg
          exact ⟨hne, hmem⟩
        rw [insKey, if_neg hmem2]
        simp only [List.map_cons, ih, insKey, if_neg hmem, List.cons_append]

theorem aggFold_keys :
    ∀ (rs : List TransactionRecord) (acc : List StaffStat),
      (rs.foldl (fun a r => aggInsert r a) acc).map statKey =
        (rs.map aggKey).foldl insKey (acc.map statKey) := by
  intro rs
  induction rs with
  | nil => intro acc; rfl
  | cons r rs ih =>
    intro acc
    rw [List.foldl_cons, ih, List.map_cons, List.foldl_cons, aggInsert_keys]

theorem insKey_nodup (ks : List (List Char)) (k : List Char) (h : ks.Nodup) :
    (insKey ks k).Nodup := by
  unfold insKey
  by_cases hm : k ∈ ks
  · rwa [if_pos hm]
  · rw [if_neg hm]
    simp [List.nodup_append, h, hm]

theorem foldl_insKey_nodup :
    ∀ (l : List (List Char)) (ks : List (List Char)), ks.Nodup →
      (l.foldl insKey ks).Nodup := by
  intro l
  induction l with
  | nil => intro ks h; exact h
  | cons k l ih => intro ks h; exact ih (insKey ks k) (insKey_nodup ks k h)

theorem mem_insKey_self (ks : List (List Char)) (k : List Char) : k ∈ insKey ks k := by
  unfold insKey
  by_cases hm : k ∈ ks
  · rwa [if_pos hm]
  · rw [if_neg hm]; simp

theorem mem_insKey_of_mem (ks : List (List Char)) (k k' : List Char) (h : k ∈ ks) :
    k ∈ insKey ks k' := by
  unfold insKey
  by_cases hm : k' ∈ ks
  · rwa [if_pos hm]
  · rw [if_neg hm]; exact List.mem_append_left _ h

theorem mem_foldl_insKey_of_mem :
    ∀ (l : List (List Char)) (ks : List (List Char)) (k : List Char), k ∈ ks →
      k ∈ l.foldl insKey ks := by
  intro l
  induction l with
  | nil => intro ks k h; exact h
  | cons k0 l ih => intro ks k h; exact ih _ k (mem_insKey_of_mem ks k k0 h)

theorem mem_foldl_insKey :
    ∀ (l : List (List Char)) (ks : List (List Char)) (k : List Char), k ∈ l →
      k ∈ l.foldl insKey ks := by
  intro l
  induction l with
  | nil => intro ks k h; exact absurd h (List.not_mem_nil k)
  | cons k0 l ih =>
    intro ks k h
    rcases List.mem_cons.mp h with rfl | hm
    · exact mem_foldl_insKey_of_mem l (insKey ks k) k (mem_insKey_self ks k)
    · exact ih _ k hm

/-- Number of records in the collection whose aggregation key is `k`. -/
def countKey (k : List Char) (rs : List TransactionRecord) : Nat :=
  (rs.filter (fun r => decide (aggKey r = k))).length

theorem countKey_nil (k : List Char) : countKey k [] = 0 := rfl

theorem countKey_cons (k : List Char) (r : TransactionRecord)
    (rs : List TransactionRecord) :
    countKey k (r :: rs) =
      (if aggKey r = k then countKey k rs + 1 else countKey k rs) := by
  unfold countKey
  rw [List.filter_cons]
  by_cases h : aggKey r = k
  · simp [h]
  · simp [h]

theorem aggInsert_mem_char (r : TransactionRecord) :
    ∀ acc : List StaffStat, (acc.map statKey).Nodup →
      ∀ t ∈ aggInsert r acc,
        (∃ s ∈ acc, statKey s = aggKey r ∧ t = accumulateRecord r s) ∨
        (t ∈ acc ∧ ¬ statKey t = aggKey r) ∨
        (aggKey r ∉ acc.map statKey ∧ t = accumulateRecord r (freshStat r)) := by
  intro acc
  induction acc with
  | nil =>
    intro _ t ht
    simp only [aggInsert, List.mem_singleton] at ht
    exact Or.inr (Or.inr ⟨by simp, ht⟩)
  | cons s rest ih =>
    intro hnd t ht
    have hnd' : (rest.map statKey).Nodup := by
      simp only [List.map_cons, List.nodup_cons] at hnd
      exact hnd.2
    have hsk : statKey s ∉ rest.map statKey := by
      simp only [List.map_cons, List.nodup_cons] at hnd
      exact hnd.1
    by_cases hk : statKey s = aggKey r
    · rw [show aggInsert r (s :: rest) = accumulateRecord r s :: rest from by
        simp [aggInsert, if_pos hk]] at ht
      rcases List.mem_cons.mp ht with he | hm
      · exact Or.inl ⟨s, List.mem_cons_self s rest, hk, he⟩
      · refine Or.inr (Or.inl ⟨List.mem_cons_of_mem s hm, fun e => ?_⟩)
        exact hsk (by rw [hk, ← e]; exact List.mem_map_of_mem statKey hm)
    · rw [show aggInsert r (s :: rest) = s :: aggInsert r rest from by
        simp [aggInsert, if_neg hk]] at ht
      rcases List.mem_cons.mp ht with he | hm
      · exact Or.inr (Or.inl ⟨he ▸ List.mem_cons_self s rest, he ▸ hk⟩)
      · rcases ih hnd' t hm with ⟨s0, hs0, hks0, he⟩ | ⟨hm2, hne⟩ | ⟨hnm, he⟩
        · exact Or.inl ⟨s0, List.mem_cons_of_mem s hs0, hks0, he⟩
        · exact Or.inr (Or.inl ⟨List.mem_cons_of_mem s hm2, hne⟩)
        · refine Or.inr (Or.inr ⟨?_, he⟩)
          simp only [List.map_cons, List.mem_cons]
          push_neg
          exact ⟨fun e => hk e.symm, hnm⟩

theorem mem_keys_aggInsert (r : TransactionRecord) (acc : List StaffStat)
    (k : List Char) (h : k ∈ acc.map statKey) :
    k ∈ (aggInsert r acc).map statKey := by
  rw [aggInsert_keys]
  exact mem_insKey_of_mem _ k _ h

theorem aggKey_mem_keys_aggInsert (r : TransactionRecord) (acc : List StaffStat) :
    aggKey r ∈ (aggInsert r acc).map statKey := by
  rw [aggInsert_keys]
  exact mem_insKey_self _ _

theorem aggFold_trans_count :
    ∀ (rs : List TransactionRecord) (acc : List StaffStat),
      (acc.map statKey).Nodup →
      ∀ s' ∈ rs.foldl (fun a r => aggInsert r a) acc,
        (∃ s ∈ acc, statKey s' = statKey s ∧
          s'.transactionCount = s.transactionCount + countKey (statKey s) rs) ∨
        (statKey s' ∉ acc.map statKey ∧
          s'.transactionCount = countKey (statKey s') rs) := by
  intro rs
  induction rs with
  | nil =>
    intro acc _ s' hs'
    exact Or.inl ⟨s', hs', rfl, by simp [countKey_nil]⟩
  | cons r rs ih =>
    intro acc hnd s' hs'
    rw [List.foldl_cons] at hs'
    have hnd' : ((aggInsert r acc).map statKey).Nodup := by
      rw [aggInsert_keys]
      exact insKey_nodup _ _ hnd
    rcases ih (aggInsert r acc) hnd' s' hs' with ⟨t, ht, hkey, hcnt⟩ | ⟨hnm, hcnt⟩
    · rcases aggInsert_mem_char r acc hnd t ht with
        ⟨s0, hs0, hks0, he⟩ | ⟨hm, hne⟩ | ⟨hnm0, he⟩
      · refine Or.inl ⟨s0, hs0, ?_, ?_⟩
        · rw [hkey, he, statKey_accumulate]
        · have e1 : statKey (accumulateRecord r s0) = statKey s0 := statKey_accumulate r s0
          have e3 : (accumulateRecord r s0).transactionCount = s0.transactionCount + 1 := rfl
          rw [hcnt, he, e1, e3, countKey_cons, if_pos hks0.symm]
          omega
      · refine Or.inl ⟨t, hm, hkey, ?_⟩
        rw [hcnt, countKey_cons, if_neg (fun e => hne e.symm)]
      · refine Or.inr ⟨?_, ?_⟩
        · rw [hkey, he, statKey_fresh]
          exact hnm0
        · rw [hcnt, hkey, he, statKey_fresh, countKey_cons, if_pos rfl]
          have e2 : (accumulateRecord r (freshStat r)).transactionCount = 1 := rfl
          rw [e2]
          omega
    · refine Or.inr ⟨?_, ?_⟩
      · intro hmem
        exact hnm (mem_keys_aggInsert r acc _ hmem)
      · have hner : ¬ aggKey r = statKey s' := by
          intro e
          exact hnm (e ▸ aggKey_mem_keys_aggInsert r acc)
        rw [hcnt, countKey_cons, if_neg hner]

theorem aggKeyParts_inj :
    ∀ (s1 : List Char) (v1 : List Char) (s2 : List Char) (v2 : List Char),
      '|' ∉ s1 → '|' ∉ s2 →
      s1 ++ cs "||" ++ v1 = s2 ++ cs "||" ++ v2 → s1 = s2 ∧ v1 = v2 := by
  intro s1
  induction s1 with
  | nil =>
    intro v1 s2 v2 _ h2 he
    cases s2 with
    | nil =>
      simp only [List.nil_append] at he
      exact ⟨rfl, by simpa [cs] using he⟩
    | cons c t =>
      exfalso
      simp only [List.nil_append, List.cons_append, List.append_assoc] at he
      have : ('|' : Char) = c := by
        have := congrArg List.head? he
        simpa [cs] using this
      exact h2 (this ▸ List.mem_cons_self c t)
  | cons c t ih =>
    intro v1 s2 v2 h1 h2 he
    cases s2 with
    | nil =>
      exfalso
      simp only [List.nil_append, List.cons_append, List.append_assoc] at he
      have : c = ('|' : Char) := by
        have := congrArg List.head? he
        simpa [cs] using this
      exact h1 (this ▸ List.mem_cons_self c t)
    | cons d u =>
      simp only [List.cons_append, List.append_assoc] at he
      have hcd : c = d := by
        have := congrArg List.head? he
        simpa using this
      have htail : t ++ cs "||" ++ v1 = u ++ cs "||" ++ v2 := by
        have := congrArg List.tail he
        simpa [List.append_assoc] using this
      have h1' : '|' ∉ t := fun m => h1 (List.mem_cons_of_mem c m)
      have h2' : '|' ∉ u := fun m => h2 (List.mem_cons_of_mem d m)
      rcases ih v1 u v2 h1' h2' htail with ⟨e1, e2⟩
      exact ⟨by rw [hcd, e1], e2⟩

theorem bumpRefusal_head_eq (k : List Char) (v : JsVal)
    (rest : List (List Char × JsVal)) (hk : ¬ k = cs "__proto__") :
    bumpRefusal k ((k, v) :: rest) = (k, bumpOwn v) :: rest := by
  unfold bumpRefusal
  rw [if_neg hk]
  simp [getOwn, setOwn]

theorem bumpRefusal_cons_ne (k k' : List Char) (v' : JsVal)
    (rest : List (List Char × JsVal)) (hk : ¬ k = cs "__proto__")
    (hne : ¬ k' = k) :
    bumpRefusal k ((k', v') :: rest) = (k', v') :: bumpRefusal k rest := by
  unfold bumpRefusal
  rw [if_neg hk]
  rw [show getOwn k ((k', v') :: rest) = getOwn k rest from by
    simp [getOwn, hne]]
  cases h : getOwn k rest with
  | some v => simp [setOwn, hne, hk]
  | none =>
    by_cases hp : k ∈ protoDataKeys
    · simp [hp, setOwn, hne, hk]
    · simp [hp, setOwn, hne, hk]

theorem bumpRefusal_clean (k : List Char) (hk1 : ¬ k = cs "__proto__")
    (hk2 : k ∉ protoDataKeys) :
    ∀ l : List (List Char × JsVal),
      (∀ kv ∈ l, ∃ n, kv.2 = JsVal.num n ∧ 1 ≤ n) →
      ((bumpRefusal k l).map (fun kv => jsValNum kv.2)).sum =
        (l.map (fun kv => jsValNum kv.2)).sum + 1 ∧
      (∀ kv ∈ bumpRefusal k l, ∃ n, kv.2 = JsVal.num n ∧ 1 ≤ n) := by
  intro l
  induction l with
  | nil =>
    intro _
    rw [show bumpRefusal k [] = [(k, JsVal.num 1)] from by
      unfold bumpRefusal
      rw [if_neg hk1]
      simp [getOwn, hk2, setOwn]]
    constructor
    · simp [jsValNum]
    · intro kv hkv
      rw [List.mem_singleton.mp hkv]
      exact ⟨1, rfl, le_refl 1⟩
  | cons kv0 rest ih =>
    obtain ⟨k', v'⟩ := kv0
    intro hall
    by_cases he : k' = k
    · obtain ⟨n, hv, hn⟩ := hall (k', v') (List.mem_cons_self _ _)
      have hv' : v' = JsVal.num n := hv
      have hb : bumpOwn (JsVal.num n) = JsVal.num (n + 1) := by
        have hn0 : ¬ n = 0 := by omega
        simp [bumpOwn, hn0]
      rw [he, bumpRefusal_head_eq k v' rest hk1, hv', hb]
      constructor
      · simp only [List.map_cons, List.sum_cons, jsValNum]
        omega
      · intro kv hkv
        rcases List.mem_cons.mp hkv with he2 | hm
        · rw [he2]
          exact ⟨n + 1, rfl, by omega⟩
        · exact hall kv (List.mem_cons_of_mem _ hm)
    · rw [bumpRefusal_cons_ne k k' v' rest hk1 he]
      have hrest := ih (fun kv hkv => hall kv (List.mem_cons_of_mem _ hkv))
      constructor
      · simp only [List.map_cons, List.sum_cons, hrest.1]
        omega
      · intro kv hkv
        rcases List.mem_cons.mp hkv with he2 | hm
        · exact he2 ▸ hall (k', v') (List.mem_cons_self _ _)
        · exact hrest.2 kv hm

-- -------------------- auxiliary lemmas: export table --------------------

theorem exportLoop_spec :
    ∀ (stats : List StaffStat) (rows : List (List Cell)) (tc tt tm ts : Int),
      exportLoop stats rows tc tt tm ts =
        (rows ++ stats.map statRow,
         tc + (stats.map StaffStat.totalCount).sum,
         tt + (stats.map (fun s => (s.transactionCount : Int))).sum,
         tm + (stats.map StaffStat.totalMoney).sum,
         ts + (stats.map StaffStat.salary).sum) := by
  intro stats
  induction stats with
  | nil =>
    intro rows tc tt tm ts
    simp [exportLoop]
  | cons s rest ih =>
    intro rows tc tt tm ts
    rw [show exportLoop (s :: rest) rows tc tt tm ts =
        exportLoop rest (rows ++ [statRow s]) (tc + s.totalCount)
          (tt + (s.transactionCount : Int)) (tm + s.totalMoney)
          (ts + s.salary) from rfl, ih]
    simp only [List.map_cons, List.sum_cons, List.append_assoc,
      List.singleton_append, Prod.mk.injEq]
    refine ⟨trivial, by ring, by ring, by ring, by ring⟩

theorem buildStaffExportTable_eq (stats : List StaffStat) :
    buildStaffExportTable stats =
      headerRow :: (stats.map statRow ++
        [[Cell.str (cs "合计"), Cell.str (cs "-"),
          Cell.num (stats.map StaffStat.totalCount).sum,
          Cell.num (stats.map (fun s => (s.transactionCount : Int))).sum,
          Cell.num (stats.map StaffStat.totalMoney).sum, Cell.str (cs "-"),
          Cell.num (stats.map StaffStat.salary).sum]]) := by
  unfold buildStaffExportTable
  rw [exportLoop_spec]
  simp

theorem joinSep_ne_nil (sep x : List Char) (xs : List (List Char)) (hx : x ≠ []) :
    joinSep sep (x :: xs) ≠ [] := by
  cases xs with
  | nil => simpa [joinSep] using hx
  | cons y ys =>
    rw [show joinSep sep (x :: y :: ys) = x ++ sep ++ joinSep sep (y :: ys) from rfl]
    simp [hx]

theorem refusalText_of_no_kept (s : StaffStat)
    (h : s.refusalSummary.filter (fun kv => decide (kv.1 ≠ noRefusal)) = []) :
    refusalText s = noRefusal := by
  unfold refusalText
  rw [h]
  rfl

theorem refusalText_of_kept (s : StaffStat)
    (h : s.refusalSummary.filter (fun kv => decide (kv.1 ≠ noRefusal)) ≠ []) :
    refusalText s =
      joinSep (cs "，")
        ((s.refusalSummary.filter (fun kv => decide (kv.1 ≠ noRefusal))).map
          (fun kv => kv.1 ++ cs "（" ++ jsValChars kv.2 ++ cs " 笔）")) := by
  unfold refusalText
  obtain ⟨kv, rest, he⟩ := List.exists_cons_of_ne_nil h
  rw [he, List.map_cons]
  rw [if_neg]
  intro hlen
  refine joinSep_ne_nil (cs "，") _ _ ?_ (List.length_eq_zero.mp hlen)
  simp only [ne_eq, List.append_eq_nil, not_and]
  intro _ hbad
  exact absurd hbad (by decide)

-- -------------------- auxiliary lemmas: the result message --------------------

/-- First line of the result message (count and winner listing). -/
def msgLine1 (tr : TransactionRecord) : List Char :=
  cs "本次 roll 点结束！共选出 " ++ natChars tr.selectedCustomers.length ++
    cs " 位顾客：" ++ winnerLines tr.selectedCustomers ++ cs "。"

/-- Second line of the result message (operator, service, slot count). -/
def msgLine2 (tr : TransactionRecord) : List Char :=
  cs "老师 " ++
    (if tr.staffId.length ≠ 0 then cs "[" ++ tr.staffId ++ cs "]"
     else cs "（未填写）") ++
    cs " 将提供 [" ++
    (if tr.serviceName.length ≠ 0 then tr.serviceName else cs "（未填写）") ++
    cs "] 服务，名额：" ++ intChars tr.amount ++ cs "。"

/-- Third line of the result message (extremity rule). -/
def msgLine3 (tr : TransactionRecord) : List Char :=
  cs "取点规则：" ++ genPickText tr.pickStrategy ++ cs "点优先。请" ++
    natChars tr.selectedCustomers.length ++ cs "位大人稍后等待我私聊。"

/-- The optional money line of the result message. -/
def msgMoneyLine (tr : TransactionRecord) : List Char :=
  cs "交易金额：" ++ intChars tr.money ++ cs " 金币（或等价单位）。"

/-- The optional refusal-type line of the result message. -/
def msgRefusalLine (tr : TransactionRecord) : List Char :=
  cs "拒接类型：" ++ tr.refusalType ++ cs "（已协调）。"

/-- Whether some line of the message starts with the given marker. -/
def lineStart (m msg : List Char) : Bool :=
  (splitNl msg).any (fun l => m.isPrefixOf l)

theorem gen_decompose (tr : TransactionRecord)
    (h : ¬ tr.selectedCustomers.length = 0) :
    generateRollResultMessage tr =
      msgLine1 tr ++ '\n' :: (msgLine2 tr ++ '\n' :: (msgLine3 tr ++
        ((if tr.money ≠ 0 then '\n' :: msgMoneyLine tr else []) ++
         (if tr.refusalType.length ≠ 0 ∧ tr.refusalType ≠ noRefusal then
            '\n' :: msgRefusalLine tr
          else [])))) := by
  unfold generateRollResultMessage msgLine1 msgLine2 msgLine3 msgMoneyLine
    msgRefusalLine
  rw [if_neg h]
  have e1 : cs "\n老师 " = '\n' :: cs "老师 " := rfl
  have e2 : cs "\n取点规则：" = '\n' :: cs "取点规则：" := rfl
  have e3 : cs "\n交易金额：" = '\n' :: cs "交易金额：" := rfl
  have e4 : cs "\n拒接类型：" = '\n' :: cs "拒接类型：" := rfl
  rw [e1, e2, e3, e4]
  simp only [List.append_assoc, List.cons_append]

theorem mem_of_mem_enumFrom {α : Type} :
    ∀ (l : List α) (n i : Nat) (c : α), (i, c) ∈ l.enumFrom n → c ∈ l := by
  intro l
  induction l with
  | nil => intro n i c h; exact absurd h (List.not_mem_nil _)
  | cons a t ih =>
    intro n i c h
    rcases List.mem_cons.mp h with he | hm
    · have : c = a := congrArg Prod.snd he
      rw [this]
      exact List.mem_cons_self a t
    · exact List.mem_cons_of_mem a (ih (n + 1) i c hm)

theorem no_nl_winnerEntry (idx : Nat) (c : CustomerRoll)
    (h : '\n' ∉ c.customerId) : '\n' ∉ winnerEntry idx c := by
  unfold winnerEntry
  simp only [List.mem_append, not_or]
  exact ⟨⟨⟨⟨⟨no_nl_natChars _, by decide⟩, h⟩, by decide⟩,
    no_nl_intChars _⟩, by decide⟩

theorem no_nl_winnerLines (sel : List CustomerRoll)
    (h : ∀ c ∈ sel, '\n' ∉ c.customerId) : '\n' ∉ winnerLines sel := by
  unfold winnerLines
  refine no_nl_joinSep _ (by decide) _ ?_
  intro p hp
  rcases List.mem_map.mp hp with ⟨ic, hic, he⟩
  exact he ▸ no_nl_winnerEntry ic.1 ic.2 (h ic.2 (mem_of_mem_enumFrom _ 0 ic.1 ic.2 hic))

theorem no_nl_msgLine1 (tr : TransactionRecord)
    (h : ∀ c ∈ tr.selectedCustomers, '\n' ∉ c.customerId) : '\n' ∉ msgLine1 tr := by
  unfold msgLine1
  simp only [List.mem_append, not_or]
  exact ⟨⟨⟨⟨by decide, no_nl_natChars _⟩, by decide⟩,
    no_nl_winnerLines _ h⟩, by decide⟩

theorem no_nl_msgLine2 (tr : TransactionRecord) (hstaff : '\n' ∉ tr.staffId)
    (hsvc : '\n' ∉ tr.serviceName) : '\n' ∉ msgLine2 tr := by
  have hIfStaff : '\n' ∉ (if tr.staffId.length ≠ 0 then
      cs "[" ++ tr.staffId ++ cs "]" else cs "（未填写）") := by
    by_cases hs : tr.staffId.length ≠ 0
    · rw [if_pos hs]
      simp only [List.mem_append, not_or]
      exact ⟨⟨by decide, hstaff⟩, by decide⟩
    · rw [if_neg hs]
      decide
  have hIfSvc : '\n' ∉ (if tr.serviceName.length ≠ 0 then tr.serviceName
      else cs "（未填写）") := by
    by_cases hs : tr.serviceName.length ≠ 0
    · rw [if_pos hs]
      exact hsvc
    · rw [if_neg hs]
      decide
  unfold msgLine2
  simp only [List.mem_append, not_or]
  exact ⟨⟨⟨⟨⟨⟨by decide, hIfStaff⟩, by decide⟩, hIfSvc⟩, by decide⟩,
    no_nl_intChars _⟩, by decide⟩

theorem no_nl_msgLine3 (tr : TransactionRecord) : '\n' ∉ msgLine3 tr := by
  have hpick : '\n' ∉ genPickText tr.pickStrategy := by
    cases tr.pickStrategy <;> decide
  unfold msgLine3
  simp only [List.mem_append, not_or]
  exact ⟨⟨⟨⟨by decide, hpick⟩, by decide⟩, no_nl_natChars _⟩, by decide⟩

theorem no_nl_msgMoneyLine (tr : TransactionRecord) : '\n' ∉ msgMoneyLine tr := by
  unfold msgMoneyLine
  simp only [List.mem_append, not_or]
  exact ⟨⟨by decide, no_nl_intChars _⟩, by decide⟩

theorem no_nl_msgRefusalLine (tr : TransactionRecord)
    (href : '\n' ∉ tr.refusalType) : '\n' ∉ msgRefusalLine tr := by
  unfold msgRefusalLine
  simp only [List.mem_append, not_or]
  exact ⟨⟨by decide, href⟩, by decide⟩

theorem gen_splitNl (tr : TransactionRecord)
    (hsel : ¬ tr.selectedCustomers.length = 0)
    (hcust : ∀ c ∈ tr.selectedCustomers, '\n' ∉ c.customerId)
    (hstaff : '\n' ∉ tr.staffId) (hsvc : '\n' ∉ tr.serviceName)
    (href : '\n' ∉ tr.refusalType) :
    splitNl (generateRollResultMessage tr) =
      msgLine1 tr :: msgLine2 tr :: msgLine3 tr ::
        ((if tr.money ≠ 0 then [msgMoneyLine tr] else []) ++
         (if tr.refusalType.length ≠ 0 ∧ tr.refusalType ≠ noRefusal then
            [msgRefusalLine tr]
          else [])) := by
  rw [gen_decompose tr hsel]
  rw [splitNl_append_nl _ _ (no_nl_msgLine1 tr hcust),
    splitNl_append_nl _ _ (no_nl_msgLine2 tr hstaff hsvc)]
  by_cases hm : tr.money ≠ 0
  · by_cases hr : tr.refusalType.length ≠ 0 ∧ tr.refusalType ≠ noRefusal
    · rw [if_pos hm, if_pos hr]
      rw [show msgLine3 tr ++ ('\n' :: msgMoneyLine tr ++ '\n' :: msgRefusalLine tr) =
          msgLine3 tr ++ '\n' :: (msgMoneyLine tr ++ '\n' :: msgRefusalLine tr) from by
        simp [List.cons_append]]
      rw [splitNl_append_nl _ _ (no_nl_msgLine3 tr),
        splitNl_append_nl _ _ (no_nl_msgMoneyLine tr),
        splitNl_of_no_nl _ (no_nl_msgRefusalLine tr href)]
      simp [hm, hr]
    · rw [if_pos hm, if_neg hr]
      rw [List.append_nil, splitNl_append_nl _ _ (no_nl_msgLine3 tr),
        splitNl_of_no_nl _ (no_nl_msgMoneyLine tr)]
      simp [hm, hr]
      intro hne
      by_contra hne2
      exact hr ⟨fun e => hne (List.length_eq_zero.mp e), hne2⟩
  · by_cases hr : tr.refusalType.length ≠ 0 ∧ tr.refusalType ≠ noRefusal
    · rw [if_neg hm, if_pos hr]
      rw [List.nil_append,
        splitNl_append_nl _ _ (no_nl_msgLine3 tr),
        splitNl_of_no_nl _ (no_nl_msgRefusalLine tr href)]
      simp [hm, hr]
    · rw [if_neg hm, if_neg hr]
      rw [List.append_nil, List.append_nil,
        splitNl_of_no_nl _ (no_nl_msgLine3 tr)]
      simp [hm, hr]
      intro hne
      by_contra hne2
      exact hr ⟨fun e => hne (List.length_eq_zero.mp e), hne2⟩

theorem isPrefixOf_false_head (a b : Char) (m l : List Char) (h : a ≠ b) :
    (a :: m).isPrefixOf (b :: l) = false := by
  have hb : (a == b) = false := beq_eq_false_iff_ne.mpr h
  simp [List.isPrefixOf, hb]

theorem isPrefixOf_false_of_head_ne (m l : List Char) (a b : Char)
    (hm : m.head? = some a) (hl : l.head? = some b) (hab : a ≠ b) :
    m.isPrefixOf l = false := by
  cases m with
  | nil => simp at hm
  | cons x xs =>
    cases l with
    | nil => simp at hl
    | cons y ys =>
      simp only [List.head?_cons, Option.some.injEq] at hm hl
      rw [← hm, ← hl] at hab
      exact isPrefixOf_false_head _ _ _ _ hab

theorem isPrefixOf_append_self : ∀ m t : List Char, m.isPrefixOf (m ++ t) = true := by
  intro m t
  induction m with
  | nil => simp [List.isPrefixOf]
  | cons c m ih => simp [List.isPrefixOf, ih]

theorem mem_joinSep_part (sep : List Char) :
    ∀ (parts : List (List Char)) (x : List Char), x ∈ parts →
      x <:+: joinSep sep parts := by
  intro parts
  induction parts with
  | nil => intro x h; exact absurd h (List.not_mem_nil x)
  | cons y ys ih =>
    intro x h
    rcases List.mem_cons.mp h with he | hm
    · cases ys with
      | nil => rw [he]; exact List.infix_refl _
      | cons z zs =>
        rw [he, show joinSep sep (y :: z :: zs) =
          y ++ sep ++ joinSep sep (z :: zs) from rfl]
        refine List.IsPrefix.isInfix ?_
        rw [List.append_assoc]
        exact (he ▸ List.prefix_append y (sep ++ joinSep sep (z :: zs)))
    · cases ys with
      | nil => exact absurd hm (List.not_mem_nil x)
      | cons z zs =>
        rw [show joinSep sep (y :: z :: zs) =
          y ++ sep ++ joinSep sep (z :: zs) from rfl]
        refine (ih x hm).trans ?_
        rw [List.append_assoc]
        exact ((List.suffix_append sep (joinSep sep (z :: zs))).isInfix).trans
          ((List.suffix_append y (sep ++ joinSep sep (z :: zs))).isInfix)

theorem winnerEntry_infix_gen (tr : TransactionRecord)
    (hsel : ¬ tr.selectedCustomers.length = 0) (i : Nat) (c : CustomerRoll)
    (hmem : (i, c) ∈ tr.selectedCustomers.enum) :
    winnerEntry i c <:+: generateRollResultMessage tr := by
  have h1 : winnerEntry i c <:+: winnerLines tr.selectedCustomers := by
    unfold winnerLines
    exact mem_joinSep_part _ _ _ (List.mem_map.mpr ⟨(i, c), hmem, rfl⟩)
  have h2 : winnerLines tr.selectedCustomers <:+: msgLine1 tr := by
    refine ⟨cs "本次 roll 点结束！共选出 " ++ natChars tr.selectedCustomers.length ++
      cs " 位顾客：", cs "。", ?_⟩
    simp [msgLine1, List.append_assoc]
  have h3 : msgLine1 tr <:+: generateRollResultMessage tr := by
    rw [gen_decompose tr hsel]
    exact (List.prefix_append _ _).isInfix
  exact (h1.trans h2).trans h3

theorem msgLine1_append_ne_notice (tr : TransactionRecord) (x : List Char) :
    msgLine1 tr ++ '\n' :: x ≠ noticeStr := by
  intro h
  have e : msgLine1 tr ++ '\n' :: x =
      '本' :: '次' :: ' ' ::
        ((((cs "roll 点结束！共选出 " ++ natChars tr.selectedCustomers.length) ++
          cs " 位顾客：") ++ winnerLines tr.selectedCustomers ++ cs "。") ++
            '\n' :: x) := by
    unfold msgLine1
    rfl
  rw [e, show noticeStr =
    '本' :: '次' :: '未' :: cs "筛选出符合条件的顾客，请检查输入数据或名额数量。" from rfl] at h
  injection h with h1 h
  injection h with h2 h
  injection h with hbad h
  exact absurd hbad (by decide)

-- -------------------- claims --------------------

/-- The exact two-line input text of the end-to-end scenario as the spec writes it. -/
def c1Input : List Char :=
  cs "[TagA] Alice rolls 672 points!\nBob rolls 127 points!"

/-- The same scenario in the chat format the parser actually accepts: the CJK
throw verb and the CJK points marker. -/
def c1InputCjk : List Char :=
  cs "[TagA] Alice 掷出了 672 点！\nBob 掷出了 127 点！"

/-- The record built from the parseable variant of the scenario with the
minimum strategy and one winner. -/
def c1Record : TransactionRecord :=
  createTransactionRecord (parseBatchCustomerRolls c1InputCjk) (cs "YYY")
    (cs "速写") 2 0 (cs "无拒接") Strategy.min 1 (cs "T-1") 0

/-- Claim C1, counterexample: on the literal input text of the claim,
`parseBatchCustomerRolls` yields the empty sequence, not the two claimed
pairs — the roll pattern requires the CJK points marker after the digits and
its verb alternatives cannot match the English word "rolls", so neither line
matches. -/
theorem claim_C1_counterexample :
    parseBatchCustomerRolls c1Input = [] ∧
    ([] : List CustomerRoll) ≠
      [⟨cs "Alice", 672⟩, ⟨cs "Bob", 127⟩] := by
  constructor
  · rfl
  · decide

/-- Claim C1, amended: with the scenario text written in the chat format the
parser accepts ("[TagA] Alice 掷出了 672 点！" and "Bob 掷出了 127 点！"),
parse yields the pairs Alice-672 and Bob-127; selecting with strategy min
and winner count 1 yields the Bob-127 pair; the record built from the parse
result has that pair as its selected customers; and the rendered message
mentions "Bob", the lowest-point wording "最低", and the slot count 2. -/
theorem claim_C1_amended :
    parseBatchCustomerRolls c1InputCjk =
      [⟨cs "Alice", 672⟩, ⟨cs "Bob", 127⟩] ∧
    pickCustomersByRoll (parseBatchCustomerRolls c1InputCjk) Strategy.min 1 =
      [⟨cs "Bob", 127⟩] ∧
    c1Record.selectedCustomers = [⟨cs "Bob", 127⟩] ∧
    containsSub (cs "Bob") (generateRollResultMessage c1Record) = true ∧
    containsSub (cs "最低") (generateRollResultMessage c1Record) = true ∧
    containsSub (cs "名额：2") (generateRollResultMessage c1Record) = true := by
  refine ⟨rfl, rfl, rfl, ?_, ?_, ?_⟩ <;> decide

/-- Claim C2: a line containing the maximum annotation (the CJK "最大"
annotation opened with either the full-width or the ASCII parenthesis, the
"(max ...)" suffix of the spec) never produces a CustomerRoll, whether the
per-line parser sees it directly or after the batch trimming; and parse of
the single line "Alice rolls 88 points (max100)" yields the empty
sequence. -/
theorem claim_C2 :
    (∀ line : List Char, containsMaxAnn line = true → parseLine line = none) ∧
    (∀ line : List Char, containsMaxAnn line = true →
      parseLine (trimChars line) = none) ∧
    parseBatchCustomerRolls (cs "Alice rolls 88 points (max100)") = [] := by
  have h1 : ∀ line : List Char, containsMaxAnn line = true →
      parseLine line = none := by
    intro line h
    unfold parseLine
    cases hm : rollLineMatch line with
    | none => rfl
    | some p =>
      obtain ⟨rawName, ds⟩ := p
      simp [h]
  exact ⟨h1, fun line h => h1 _ (containsMaxAnn_trimChars line h), rfl⟩

/-- Witness for claim C2 at a concrete annotated line, in both the raw and
the trimmed form. -/
theorem claim_C2_witness :
    containsMaxAnn (cs "甲 掷出 50 点（最大100）") = true ∧
    parseLine (cs "甲 掷出 50 点（最大100）") = none ∧
    parseLine (trimChars (cs " 乙 roll 7 点 (最大100) ")) = none :=
  ⟨by decide, claim_C2.1 _ (by decide), claim_C2.2.1 _ (by decide)⟩

/-- The tie-break example sequence of claim C3. -/
def exC3 : List CustomerRoll := [⟨cs "A", 50⟩, ⟨cs "B", 90⟩, ⟨cs "C", 90⟩]

/-- Claim C3: pickCustomersByRoll returns the empty sequence when the input
is empty or the winner count is not positive; otherwise it is the first
winnerCount elements of a stable sort of the input by roll value (descending
for max, ascending for min; the sort is a permutation, it is sorted in the
required direction, and equal roll values keep their relative input order);
every returned element is an input element, the result length is
min(winnerCount, input length), and the concrete tie-break example selects B. -/
theorem claim_C3 :
    (∀ (rolls : List CustomerRoll) (pick : Strategy) (wc : Int),
      (rolls = [] ∨ wc ≤ 0 → pickCustomersByRoll rolls pick wc = []) ∧
      (rolls ≠ [] → 0 < wc →
        pickCustomersByRoll rolls pick wc =
          (sortRolls (rollLe pick) rolls).take wc.toNat) ∧
      (sortRolls (rollLe pick) rolls).Perm rolls ∧
      (pick = Strategy.max →
        (sortRolls (rollLe pick) rolls).Pairwise
          (fun a b => b.rollValue ≤ a.rollValue)) ∧
      (pick = Strategy.min →
        (sortRolls (rollLe pick) rolls).Pairwise
          (fun a b => a.rollValue ≤ b.rollValue)) ∧
      (∀ v : Int,
        (sortRolls (rollLe pick) rolls).filter
            (fun c => decide (c.rollValue = v)) =
          rolls.filter (fun c => decide (c.rollValue = v))) ∧
      (∀ x ∈ pickCustomersByRoll rolls pick wc, x ∈ rolls) ∧
      (pickCustomersByRoll rolls pick wc).length =
        Nat.min wc.toNat rolls.length) ∧
    pickCustomersByRoll exC3 Strategy.max 1 = [⟨cs "B", 90⟩] := by
  constructor
  · intro rolls pick wc
    refine ⟨pickCustomersByRoll_degenerate rolls pick wc,
      pickCustomersByRoll_eq_take rolls pick wc,
      sortRolls_perm _ rolls, ?_, ?_, ?_,
      pickCustomersByRoll_subset rolls pick wc,
      pickCustomersByRoll_length rolls pick wc⟩
    · intro he
      subst he
      refine (sortRolls_pairwise (rollLe Strategy.max) (rollLe_total _)
        (rollLe_trans _) rolls).imp ?_
      intro a b h
      simpa [rollLe] using h
    · intro he
      subst he
      refine (sortRolls_pairwise (rollLe Strategy.min) (rollLe_total _)
        (rollLe_trans _) rolls).imp ?_
      intro a b h
      simpa [rollLe] using h
    · intro v
      exact sortRolls_filter (rollLe pick) (rollLe_false_ne pick) v rolls
  · decide

/-- Witness for claim C3: the degenerate branch at the empty input, the take
form at the example, and the subset clause at a concrete member. -/
theorem claim_C3_witness :
    pickCustomersByRoll ([] : List CustomerRoll) Strategy.max 1 = [] ∧
    pickCustomersByRoll exC3 Strategy.max 2 =
      (sortRolls (rollLe Strategy.max) exC3).take (2 : Int).toNat ∧
    (sortRolls (rollLe Strategy.max) exC3).Pairwise
      (fun a b => b.rollValue ≤ a.rollValue) ∧
    (sortRolls (rollLe Strategy.min) exC3).Pairwise
      (fun a b => a.rollValue ≤ b.rollValue) ∧
    (⟨cs "B", 90⟩ : CustomerRoll) ∈ exC3 :=
  ⟨(claim_C3.1 [] Strategy.max 1).1 (Or.inl rfl),
   (claim_C3.1 exC3 Strategy.max 2).2.1 (by decide) (by decide),
   (claim_C3.1 exC3 Strategy.max 2).2.2.2.1 rfl,
   (claim_C3.1 exC3 Strategy.min 2).2.2.2.2.1 rfl,
   (claim_C3.1 exC3 Strategy.max 1).2.2.2.2.2.2.1 ⟨cs "B", 90⟩ (by decide)⟩

/-- Claim C4: every record built by createTransactionRecord has
selectedCustomers equal to the selector output — the sorted-and-truncated
subset of customers, of length min(winnerCount, customers.length) when the
winner count is positive and the customers are non-empty, and empty
otherwise — and selectedCustomer equal to the first selected customer or
none. -/
theorem claim_C4 (customers : List CustomerRoll) (staffId serviceName : List Char)
    (amount money : Int) (refusalType : List Char) (strat : Strategy) (wc : Int)
    (newId : List Char) (now : Nat) (tr : TransactionRecord)
    (htr : tr = createTransactionRecord customers staffId serviceName amount
      money refusalType strat wc newId now) :
    tr.selectedCustomers = pickCustomersByRoll customers strat wc ∧
    (0 < wc → customers ≠ [] →
      tr.selectedCustomers.length = Nat.min wc.toNat customers.length) ∧
    (wc ≤ 0 ∨ customers = [] → tr.selectedCustomers = []) ∧
    (∀ x ∈ tr.selectedCustomers, x ∈ customers) ∧
    (customers ≠ [] → 0 < wc →
      tr.selectedCustomers = (sortRolls (rollLe strat) customers).take wc.toNat) ∧
    tr.selectedCustomer = tr.selectedCustomers.head? := by
  subst htr
  have hsel : (createTransactionRecord customers staffId serviceName amount
      money refusalType strat wc newId now).selectedCustomers =
      pickCustomersByRoll customers strat wc := rfl
  refine ⟨hsel, ?_, ?_, ?_, ?_, rfl⟩
  · intro _ _
    rw [hsel]
    exact pickCustomersByRoll_length customers strat wc
  · intro h
    rw [hsel]
    exact pickCustomersByRoll_degenerate customers strat wc h.symm
  · intro x hx
    rw [hsel] at hx
    exact pickCustomersByRoll_subset customers strat wc x hx
  · intro h1 h2
    rw [hsel]
    exact pickCustomersByRoll_eq_take customers strat wc h1 h2

/-- Witness for claim C4 at the concrete tie-break example. -/
theorem claim_C4_witness :
    (createTransactionRecord exC3 (cs "S") (cs "速写") 1 0 (cs "无拒接")
        Strategy.max 1 (cs "T-2") 0).selectedCustomers.length =
      Nat.min (1 : Int).toNat exC3.length ∧
    (createTransactionRecord [] (cs "S") (cs "速写") 1 0 (cs "无拒接")
        Strategy.max 1 (cs "T-2") 0).selectedCustomers = [] ∧
    (createTransactionRecord exC3 (cs "S") (cs "速写") 1 0 (cs "无拒接")
        Strategy.max 1 (cs "T-2") 0).selectedCustomers =
      (sortRolls (rollLe Strategy.max) exC3).take (1 : Int).toNat ∧
    (⟨cs "B", 90⟩ : CustomerRoll) ∈ exC3 :=
  ⟨(claim_C4 exC3 (cs "S") (cs "速写") 1 0 (cs "无拒接") Strategy.max 1
      (cs "T-2") 0 _ rfl).2.1 (by decide) (by decide),
   (claim_C4 [] (cs "S") (cs "速写") 1 0 (cs "无拒接") Strategy.max 1
      (cs "T-2") 0 _ rfl).2.2.1 (Or.inr rfl),
   (claim_C4 exC3 (cs "S") (cs "速写") 1 0 (cs "无拒接") Strategy.max 1
      (cs "T-2") 0 _ rfl).2.2.2.2.1 (by decide) (by decide),
   (claim_C4 exC3 (cs "S") (cs "速写") 1 0 (cs "无拒接") Strategy.max 1
      (cs "T-2") 0 _ rfl).2.2.2.1 ⟨cs "B", 90⟩ (by decide)⟩

/-- Claim C5, aggregation conservation: over any record collection, the
totalCount fields of the returned stats sum to the amounts of the records,
and the totalMoney fields sum to the money of the records. -/
theorem claim_C5 (records : List TransactionRecord) :
    ((aggregateStaffStats records).map StaffStat.totalCount).sum =
      (records.map TransactionRecord.amount).sum ∧
    ((aggregateStaffStats records).map StaffStat.totalMoney).sum =
      (records.map TransactionRecord.money).sum := by
  constructor
  · have h := aggFold_map_sum StaffStat.totalCount TransactionRecord.amount
      (fun r s => rfl) (fun r => rfl) records []
    simpa [aggregateStaffStats] using h
  · have h := aggFold_map_sum StaffStat.totalMoney TransactionRecord.money
      (fun r s => rfl) (fun r => rfl) records []
    simpa [aggregateStaffStats] using h

/-- A record whose staff id and service name collide through the key
separator with those of `c6rec2`. -/
def c6rec1 : TransactionRecord :=
  { id := [], time := 0, customers := [], selectedCustomers := [],
    selectedCustomer := none, staffId := cs "a", serviceName := cs "|x",
    amount := 1, money := 0, refusalType := cs "无拒接",
    pickStrategy := Strategy.max, winnerCount := 1 }

/-- A record with a different (staffId, serviceName) pair but the same
concatenated aggregation key as `c6rec1`. -/
def c6rec2 : TransactionRecord :=
  { id := [], time := 0, customers := [], selectedCustomers := [],
    selectedCustomer := none, staffId := cs "a|", serviceName := cs "x",
    amount := 1, money := 0, refusalType := cs "无拒接",
    pickStrategy := Strategy.max, winnerCount := 1 }

/-- Claim C6, counterexample: the two records have different
(staffId, serviceName) pairs, yet aggregateStaffStats folds them into a
single entry (one stat, transaction count two), because grouping uses the
concatenated string key staffId plus the two-bar separator plus serviceName,
and "a" with "|x" collides with "a|" with "x". -/
theorem claim_C6_counterexample :
    ¬ (c6rec1.staffId = c6rec2.staffId ∧ c6rec1.serviceName = c6rec2.serviceName) ∧
    (aggregateStaffStats [c6rec1, c6rec2]).length = 1 ∧
    (aggregateStaffStats [c6rec1, c6rec2]).map
      (fun s => s.transactionCount) = [2] := by
  refine ⟨?_, ?_, ?_⟩ <;> decide

/-- Claim C6, amended: aggregateStaffStats returns exactly one entry per
distinct concatenated key staffId-"||"-serviceName, in first-seen order over
the records; every record's key is represented; each entry accumulates
exactly the records whose key equals its own (its transaction count is the
number of such records, and at least one record carries its key); and when
no staff id contains the bar character the keys are in bijection with the
(staffId, serviceName) pairs, so each entry accumulates exactly the records
with its pair. -/
theorem claim_C6_amended (records : List TransactionRecord) :
    ((aggregateStaffStats records).map statKey).Nodup ∧
    (aggregateStaffStats records).map statKey =
      (records.map aggKey).foldl insKey [] ∧
    (∀ r ∈ records, aggKey r ∈ (aggregateStaffStats records).map statKey) ∧
    (∀ s ∈ aggregateStaffStats records,
      s.transactionCount = countKey (statKey s) records ∧
      ∃ r ∈ records, aggKey r = statKey s) ∧
    ((∀ r ∈ records, '|' ∉ r.staffId) →
      ∀ s ∈ aggregateStaffStats records,
        s.transactionCount =
          (records.filter (fun r =>
            decide (r.staffId = s.staffId ∧ r.serviceName = s.serviceName))).length) := by
  have hkeys : (aggregateStaffStats records).map statKey =
      (records.map aggKey).foldl insKey [] := by
    have h := aggFold_keys records []
    simpa [aggregateStaffStats] using h
  have hnodup : ((aggregateStaffStats records).map statKey).Nodup := by
    rw [hkeys]
    exact foldl_insKey_nodup _ [] List.nodup_nil
  have hcount : ∀ s ∈ aggregateStaffStats records,
      s.transactionCount = countKey (statKey s) records := by
    intro s hs
    have h := aggFold_trans_count records [] (by simp) s
      (by simpa [aggregateStaffStats] using hs)
    rcases h with ⟨s0, hs0, _⟩ | ⟨_, hc⟩
    · exact absurd hs0 (List.not_mem_nil s0)
    · exact hc
  have hpos : ∀ s ∈ aggregateStaffStats records, 1 ≤ s.transactionCount := by
    intro s hs
    refine aggFold_invariant (fun s => 1 ≤ s.transactionCount) (fun _ => True)
      (fun r s _ h => ?_) (fun r _ => ?_) records [] (fun _ _ => trivial)
      (fun x hx => absurd hx (List.not_mem_nil x)) s
      (by simpa [aggregateStaffStats] using hs)
    · have e : (accumulateRecord r s).transactionCount = s.transactionCount + 1 := rfl
      omega
    · have e : (accumulateRecord r (freshStat r)).transactionCount = 1 := rfl
      omega
  have horigin : ∀ s ∈ aggregateStaffStats records,
      ∃ r0 ∈ records, r0.staffId = s.staffId ∧ r0.serviceName = s.serviceName := by
    intro s hs
    refine aggFold_invariant
      (fun s => ∃ r0 ∈ records, r0.staffId = s.staffId ∧ r0.serviceName = s.serviceName)
      (fun r => r ∈ records) (fun r s hr ⟨r0, hr0, h1, h2⟩ => ⟨r0, hr0, h1, h2⟩)
      (fun r hr => ⟨r, hr, rfl, rfl⟩) records [] (fun r hr => hr)
      (fun x hx => absurd hx (List.not_mem_nil x)) s
      (by simpa [aggregateStaffStats] using hs)
  refine ⟨hnodup, hkeys, ?_, ?_, ?_⟩
  · intro r hr
    rw [hkeys]
    exact mem_foldl_insKey _ [] _ (List.mem_map_of_mem aggKey hr)
  · intro s hs
    refine ⟨hcount s hs, ?_⟩
    have h1 := hpos s hs
    have h2 := hcount s hs
    have h3 : 0 < countKey (statKey s) records := by omega
    obtain ⟨r, hrmem⟩ := List.exists_mem_of_length_pos h3
    rcases List.mem_filter.mp hrmem with ⟨hrin, hrkey⟩
    exact ⟨r, hrin, of_decide_eq_true hrkey⟩
  · intro hbar s hs
    obtain ⟨r0, hr0, he1, he2⟩ := horigin s hs
    have hbs : '|' ∉ s.staffId := he1 ▸ hbar r0 hr0
    rw [hcount s hs]
    unfold countKey
    congr 1
    refine List.filter_congr ?_
    intro r hr
    rw [decide_eq_decide]
    constructor
    · intro h
      exact aggKeyParts_inj r.staffId r.serviceName s.staffId s.serviceName
        (hbar r hr) hbs h
    · intro ⟨h1, h2⟩
      unfold aggKey statKey
      rw [h1, h2]

/-- A record with a bar-free staff id, used to exercise the pair-level clause. -/
def c6rec3 : TransactionRecord :=
  { id := [], time := 0, customers := [], selectedCustomers := [],
    selectedCustomer := none, staffId := cs "b", serviceName := cs "y",
    amount := 2, money := 10, refusalType := cs "时间冲突",
    pickStrategy := Strategy.min, winnerCount := 1 }

/-- Witness for claim C6 at a concrete two-record collection with two
distinct keys. -/
theorem claim_C6_witness :
    aggKey c6rec1 ∈ (aggregateStaffStats [c6rec1, c6rec3]).map statKey ∧
    (accumulateRecord c6rec1 (freshStat c6rec1)).transactionCount =
      countKey (statKey (accumulateRecord c6rec1 (freshStat c6rec1)))
        [c6rec1, c6rec3] ∧
    (accumulateRecord c6rec3 (freshStat c6rec3)).transactionCount =
      ([c6rec3].filter (fun r =>
        decide (r.staffId = (accumulateRecord c6rec3 (freshStat c6rec3)).staffId ∧
          r.serviceName =
            (accumulateRecord c6rec3 (freshStat c6rec3)).serviceName))).length :=
  ⟨(claim_C6_amended [c6rec1, c6rec3]).2.2.1 c6rec1 (by decide),
   ((claim_C6_amended [c6rec1, c6rec3]).2.2.2.1
     (accumulateRecord c6rec1 (freshStat c6rec1)) (by decide)).1,
   (claim_C6_amended [c6rec3]).2.2.2.2 (by decide)
     (accumulateRecord c6rec3 (freshStat c6rec3)) (by decide)⟩

/-- A record whose refusal type is the key of the inherited prototype
accessor. -/
def c10proto : TransactionRecord :=
  { id := [], time := 0, customers := [], selectedCustomers := [],
    selectedCustomer := none, staffId := cs "S", serviceName := cs "速写",
    amount := 1, money := 0, refusalType := cs "__proto__",
    pickStrategy := Strategy.max, winnerCount := 1 }

/-- A record whose refusal type shadows an inherited prototype data
property. -/
def c10tostr : TransactionRecord :=
  { id := [], time := 0, customers := [], selectedCustomers := [],
    selectedCustomer := none, staffId := cs "S", serviceName := cs "速写",
    amount := 1, money := 0, refusalType := cs "toString",
    pickStrategy := Strategy.max, winnerCount := 1 }

/-- Claim C10, counterexample: the bump runs on a plain object literal, so a
record with refusalType "__proto__" stores nothing (the inherited accessor's
setter ignores the primitive right-hand side), leaving a stat with
transaction count one and an empty refusal summary — the counts sum to zero,
not one — and a record with refusalType "toString" reads the truthy
inherited function and stores a string instead of a count, so no stored
count of at least one exists for it. -/
theorem claim_C10_counterexample :
    (aggregateStaffStats [c10proto]).map (fun s => s.refusalSummary) = [[]] ∧
    (aggregateStaffStats [c10proto]).map (fun s => s.transactionCount) = [1] ∧
    (aggregateStaffStats [c10tostr]).map
      (fun s => s.refusalSummary.map (fun kv => isNumVal kv.2)) = [[false]] := by
  refine ⟨?_, ?_, ?_⟩ <;> decide

/-- Claim C10, amended: for every record collection in which no record's
refusal type is "__proto__" or the name of an inherited Object.prototype
data property, every stat entry's refusal summary holds numeric counts that
sum to exactly its transaction count (each record of the group increments
exactly one counter by one), and every stored count is at least one. -/
theorem claim_C10_amended (records : List TransactionRecord)
    (hclean : ∀ r ∈ records, r.refusalType ≠ cs "__proto__" ∧
      r.refusalType ∉ protoDataKeys) :
    ∀ s ∈ aggregateStaffStats records,
      ((s.refusalSummary.map (fun kv => jsValNum kv.2)).sum =
        s.transactionCount) ∧
      (∀ kv ∈ s.refusalSummary, ∃ n, kv.2 = JsVal.num n ∧ 1 ≤ n) := by
  intro s hs
  refine aggFold_invariant
    (fun s => ((s.refusalSummary.map (fun kv => jsValNum kv.2)).sum =
        s.transactionCount) ∧
      (∀ kv ∈ s.refusalSummary, ∃ n, kv.2 = JsVal.num n ∧ 1 ≤ n))
    (fun r => r.refusalType ≠ cs "__proto__" ∧ r.refusalType ∉ protoDataKeys)
    ?_ ?_ records [] hclean
    (fun x hx => absurd hx (List.not_mem_nil x)) s
    (by simpa [aggregateStaffStats] using hs)
  · intro r s hr hP
    obtain ⟨h1, h2⟩ := hP
    have e1 : (accumulateRecord r s).refusalSummary =
      bumpRefusal r.refusalType s.refusalSummary := rfl
    have e2 : (accumulateRecord r s).transactionCount =
      s.transactionCount + 1 := rfl
    have hb := bumpRefusal_clean r.refusalType hr.1 hr.2 s.refusalSummary h2
    refine ⟨?_, ?_⟩
    · rw [e1, e2, hb.1, h1]
    · rw [e1]
      exact hb.2
  · intro r hr
    have e1 : (accumulateRecord r (freshStat r)).refusalSummary =
      bumpRefusal r.refusalType [] := rfl
    have e2 : (accumulateRecord r (freshStat r)).transactionCount = 1 := rfl
    have hb := bumpRefusal_clean r.refusalType hr.1 hr.2 []
      (fun kv hkv => absurd hkv (List.not_mem_nil kv))
    refine ⟨?_, ?_⟩
    · rw [e1, e2, hb.1]
      rfl
    · rw [e1]
      exact hb.2

/-- The single stat entry of a one-record collection, used as the concrete
witness input for claim C10. -/
def c10stat : StaffStat := accumulateRecord c6rec3 (freshStat c6rec3)

/-- Witness for claim C10 at a concrete one-record collection whose refusal
type collides with no prototype member. -/
theorem claim_C10_witness :
    (c10stat.refusalSummary.map (fun kv => jsValNum kv.2)).sum =
      c10stat.transactionCount :=
  (claim_C10_amended [c6rec3] (by decide) c10stat (by decide)).1

/-- A record with a non-empty selection and an empty refusal type. -/
def c7rec : TransactionRecord :=
  { id := [], time := 0, customers := [⟨cs "A", 5⟩],
    selectedCustomers := [⟨cs "A", 5⟩], selectedCustomer := some ⟨cs "A", 5⟩,
    staffId := cs "S", serviceName := cs "速写", amount := 1, money := 0,
    refusalType := [], pickStrategy := Strategy.max, winnerCount := 1 }

/-- Claim C7, counterexample: for a record whose refusalType is the empty
string, the refusal type differs from the "无拒接" sentinel yet the rendered
message contains no refusal-type line (neither as a line opener nor as a
substring) — the source also requires the refusal type to be truthy. -/
theorem claim_C7_counterexample :
    c7rec.selectedCustomers ≠ [] ∧
    c7rec.refusalType ≠ noRefusal ∧
    lineStart (cs "拒接类型：") (generateRollResultMessage c7rec) = false ∧
    containsSub (cs "拒接类型") (generateRollResultMessage c7rec) = false := by
  refine ⟨?_, ?_, ?_, ?_⟩ <;> decide

/-- Claim C7, amended: the generator returns the fixed notice exactly when
the selection is empty (a normal return value); otherwise, for any record
whose injected text fields contain no newline, the message has a line
opening with the money marker exactly when money is non-zero, a line opening
with the refusal marker exactly when refusalType is non-empty and differs
from the sentinel, and it lists every selected customer with its numbered
entry. -/
theorem claim_C7_amended (tr : TransactionRecord) :
    (tr.selectedCustomers = [] → generateRollResultMessage tr = noticeStr) ∧
    (tr.selectedCustomers ≠ [] → generateRollResultMessage tr ≠ noticeStr) ∧
    (tr.selectedCustomers ≠ [] →
      (∀ c ∈ tr.selectedCustomers, '\n' ∉ c.customerId) →
      '\n' ∉ tr.staffId → '\n' ∉ tr.serviceName → '\n' ∉ tr.refusalType →
      ((lineStart (cs "交易金额：") (generateRollResultMessage tr) = true ↔
          tr.money ≠ 0) ∧
       (lineStart (cs "拒接类型：") (generateRollResultMessage tr) = true ↔
          (tr.refusalType ≠ [] ∧ tr.refusalType ≠ noRefusal)) ∧
       (∀ ic ∈ tr.selectedCustomers.enum,
          containsSub (winnerEntry ic.1 ic.2)
            (generateRollResultMessage tr) = true))) := by
  refine ⟨?_, ?_, ?_⟩
  · intro h
    unfold generateRollResultMessage
    rw [if_pos (by rw [h]; rfl)]
  · intro h
    have hsel : ¬ tr.selectedCustomers.length = 0 :=
      fun e => h (List.length_eq_zero.mp e)
    rw [gen_decompose tr hsel]
    exact msgLine1_append_ne_notice tr _
  · intro h hcust hstaff hsvc href
    have hsel : ¬ tr.selectedCustomers.length = 0 :=
      fun e => h (List.length_eq_zero.mp e)
    have hsplit := gen_splitNl tr hsel hcust hstaff hsvc href
    have p1M : (cs "交易金额：").isPrefixOf (msgLine1 tr) = false :=
      isPrefixOf_false_of_head_ne _ _ '交' '本' rfl rfl (by decide)
    have p2M : (cs "交易金额：").isPrefixOf (msgLine2 tr) = false :=
      isPrefixOf_false_of_head_ne _ _ '交' '老' rfl rfl (by decide)
    have p3M : (cs "交易金额：").isPrefixOf (msgLine3 tr) = false :=
      isPrefixOf_false_of_head_ne _ _ '交' '取' rfl rfl (by decide)
    have pMRef : (cs "交易金额：").isPrefixOf (msgRefusalLine tr) = false :=
      isPrefixOf_false_of_head_ne _ _ '交' '拒' rfl rfl (by decide)
    have p1R : (cs "拒接类型：").isPrefixOf (msgLine1 tr) = false :=
      isPrefixOf_false_of_head_ne _ _ '拒' '本' rfl rfl (by decide)
    have p2R : (cs "拒接类型：").isPrefixOf (msgLine2 tr) = false :=
      isPrefixOf_false_of_head_ne _ _ '拒' '老' rfl rfl (by decide)
    have p3R : (cs "拒接类型：").isPrefixOf (msgLine3 tr) = false :=
      isPrefixOf_false_of_head_ne _ _ '拒' '取' rfl rfl (by decide)
    have pRMoney : (cs "拒接类型：").isPrefixOf (msgMoneyLine tr) = false :=
      isPrefixOf_false_of_head_ne _ _ '拒' '交' rfl rfl (by decide)
    have pMM : (cs "交易金额：").isPrefixOf (msgMoneyLine tr) = true := by
      unfold msgMoneyLine
      rw [List.append_assoc]
      exact isPrefixOf_append_self _ _
    have pRR : (cs "拒接类型：").isPrefixOf (msgRefusalLine tr) = true := by
      unfold msgRefusalLine
      rw [List.append_assoc]
      exact isPrefixOf_append_self _ _
    have hiff : (tr.refusalType.length ≠ 0 ∧ tr.refusalType ≠ noRefusal) ↔
        (tr.refusalType ≠ [] ∧ tr.refusalType ≠ noRefusal) := by
      constructor
      · intro hc
        exact ⟨fun e => hc.1 (by rw [e]; rfl), hc.2⟩
      · intro hc
        exact ⟨fun e => hc.1 (List.length_eq_zero.mp e), hc.2⟩
    refine ⟨?_, ?_, ?_⟩
    · rw [lineStart, hsplit]
      by_cases hm : tr.money ≠ 0
      · rw [if_pos hm]
        by_cases hr : tr.refusalType.length ≠ 0 ∧ tr.refusalType ≠ noRefusal
        · rw [if_pos hr]
          simp [p1M, p2M, p3M, pMM, hm]
        · rw [if_neg hr]
          simp [p1M, p2M, p3M, pMM, hm]
      · rw [if_neg hm]
        by_cases hr : tr.refusalType.length ≠ 0 ∧ tr.refusalType ≠ noRefusal
        · rw [if_pos hr]
          simp [p1M, p2M, p3M, pMRef, hm]
        · rw [if_neg hr]
          simp [p1M, p2M, p3M, hm]
    · rw [lineStart, hsplit]
      by_cases hr : tr.refusalType.length ≠ 0 ∧ tr.refusalType ≠ noRefusal
      · rw [if_pos hr]
        by_cases hm : tr.money ≠ 0
        · rw [if_pos hm]
          simp [p1R, p2R, p3R, pRMoney, pRR, hiff.mp hr]
        · rw [if_neg hm]
          simp [p1R, p2R, p3R, pRR, hiff.mp hr]
      · rw [if_neg hr]
        have hnr : ¬ (tr.refusalType ≠ [] ∧ tr.refusalType ≠ noRefusal) :=
          fun hc => hr (hiff.mpr hc)
        by_cases hm : tr.money ≠ 0
        · rw [if_pos hm]
          simp [p1R, p2R, p3R, pRMoney, hnr]
        · rw [if_neg hm]
          simp [p1R, p2R, p3R, hnr]
    · intro ic hic
      obtain ⟨i, c⟩ := ic
      exact (containsSub_char_iff _ _).mpr
        (winnerEntry_infix_gen tr hsel i c hic)

/-- A full record with money, a real refusal type and one selected winner. -/
def c7full : TransactionRecord :=
  { id := [], time := 0, customers := [⟨cs "甲", 40⟩, ⟨cs "乙", 90⟩],
    selectedCustomers := [⟨cs "乙", 90⟩], selectedCustomer := some ⟨cs "乙", 90⟩,
    staffId := cs "S", serviceName := cs "速写", amount := 1, money := 5000,
    refusalType := cs "时间冲突", pickStrategy := Strategy.max, winnerCount := 1 }

/-- Witness for claim C7 at concrete records: the empty-selection notice, the
non-notice case and the two marker lines with a listed winner entry. -/
theorem claim_C7_witness :
    generateRollResultMessage c6rec1 = noticeStr ∧
    generateRollResultMessage c7full ≠ noticeStr ∧
    (lineStart (cs "交易金额：") (generateRollResultMessage c7full) = true ↔
      c7full.money ≠ 0) ∧
    (lineStart (cs "拒接类型：") (generateRollResultMessage c7full) = true ↔
      (c7full.refusalType ≠ [] ∧ c7full.refusalType ≠ noRefusal)) ∧
    containsSub (winnerEntry 0 ⟨cs "乙", 90⟩)
      (generateRollResultMessage c7full) = true :=
  ⟨(claim_C7_amended c6rec1).1 rfl,
   (claim_C7_amended c7full).2.1 (by decide),
   ((claim_C7_amended c7full).2.2 (by decide) (by decide) (by decide)
     (by decide) (by decide)).1,
   ((claim_C7_amended c7full).2.2 (by decide) (by decide) (by decide)
     (by decide) (by decide)).2.1,
   ((claim_C7_amended c7full).2.2 (by decide) (by decide) (by decide)
     (by decide) (by decide)).2.2 (0, ⟨cs "乙", 90⟩) (by decide)⟩

/-- Claim C8, view isolation: the staff view contains exactly the records
whose staff id equals the viewer id (exact list-of-characters equality, hence
case-sensitive), each projected with the time replaced by its localized
rendering and every other field unchanged; the guest view maps every record
to the public summary, and that summary is unchanged under any change of the
record id and depends on the customers only through their joined
name(value) renderings. -/
theorem claim_C8 (records : List TransactionRecord) (v : List Char)
    (fmtDT fmtT : Nat → List Char) :
    (∀ row ∈ filterRecordsForView records Role.staff (some v) fmtDT fmtT,
      ∃ r ∈ records, r.staffId = v ∧ row = ViewRow.own (toStaffRow fmtDT r)) ∧
    (∀ r ∈ records, r.staffId = v →
      ViewRow.own (toStaffRow fmtDT r) ∈
        filterRecordsForView records Role.staff (some v) fmtDT fmtT) ∧
    (∀ r : TransactionRecord,
      (toStaffRow fmtDT r).id = r.id ∧
      (toStaffRow fmtDT r).time = fmtDT r.time ∧
      (toStaffRow fmtDT r).customers = r.customers ∧
      (toStaffRow fmtDT r).selectedCustomers = r.selectedCustomers ∧
      (toStaffRow fmtDT r).selectedCustomer = r.selectedCustomer ∧
      (toStaffRow fmtDT r).staffId = r.staffId ∧
      (toStaffRow fmtDT r).serviceName = r.serviceName ∧
      (toStaffRow fmtDT r).amount = r.amount ∧
      (toStaffRow fmtDT r).money = r.money ∧
      (toStaffRow fmtDT r).refusalType = r.refusalType ∧
      (toStaffRow fmtDT r).pickStrategy = r.pickStrategy ∧
      (toStaffRow fmtDT r).winnerCount = r.winnerCount) ∧
    (∀ vid : Option (List Char),
      filterRecordsForView records Role.guest vid fmtDT fmtT =
        records.map (fun r => ViewRow.pub (mapToPublicRollResult fmtT r))) ∧
    (∀ (r : TransactionRecord) (newId : List Char),
      mapToPublicRollResult fmtT { r with id := newId } =
        mapToPublicRollResult fmtT r) ∧
    (∀ (r : TransactionRecord) (c c' : List CustomerRoll),
      c.map renderRoll = c'.map renderRoll →
      mapToPublicRollResult fmtT { r with customers := c } =
        mapToPublicRollResult fmtT { r with customers := c' }) := by
  refine ⟨?_, ?_, ?_, ?_, ?_, ?_⟩
  · intro row hrow
    unfold filterRecordsForView at hrow
    rcases List.mem_map.mp hrow with ⟨r, hr, he⟩
    rcases List.mem_filter.mp hr with ⟨hrin, hpred⟩
    have : some r.staffId = some v := of_decide_eq_true hpred
    exact ⟨r, hrin, Option.some.injEq _ _ ▸ this, he.symm⟩
  · intro r hr he
    unfold filterRecordsForView
    refine List.mem_map_of_mem _ ?_
    refine List.mem_filter.mpr ⟨hr, ?_⟩
    rw [he]
    exact decide_eq_true rfl
  · intro r
    exact ⟨rfl, rfl, rfl, rfl, rfl, rfl, rfl, rfl, rfl, rfl, rfl, rfl⟩
  · intro vid
    rfl
  · intro r newId
    rfl
  · intro r c c' h
    unfold mapToPublicRollResult
    simp only [h]

/-- Witness for claim C8 at a concrete collection: the matching record's
projection is a staff-view member, every staff-view row traces back to a
matching record, and the public summary ignores the record id. -/
theorem claim_C8_witness :
    (∃ r ∈ [c6rec1, c6rec3], r.staffId = cs "b" ∧
      ViewRow.own (toStaffRow (fun _ => []) c6rec3) =
        ViewRow.own (toStaffRow (fun _ => []) r)) ∧
    ViewRow.own (toStaffRow (fun _ => []) c6rec3) ∈
      filterRecordsForView [c6rec1, c6rec3] Role.staff (some (cs "b"))
        (fun _ => []) (fun _ => []) ∧
    mapToPublicRollResult (fun _ => []) { c6rec3 with id := cs "other" } =
      mapToPublicRollResult (fun _ => []) c6rec3 :=
  ⟨(claim_C8 [c6rec1, c6rec3] (cs "b") (fun _ => []) (fun _ => [])).1
     (ViewRow.own (toStaffRow (fun _ => []) c6rec3)) (by decide),
   (claim_C8 [c6rec1, c6rec3] (cs "b") (fun _ => []) (fun _ => [])).2.1
     c6rec3 (by decide) (by decide),
   (claim_C8 [c6rec1, c6rec3] (cs "b") (fun _ => []) (fun _ => [])).2.2.2.2.1
     c6rec3 (cs "other")⟩

/-- Claim C9, counterexample: the trailing totals row of the export table
carries the "合计" label in its first non-summable cell, not "-"; already on
the empty stat list the final row is [合计, -, 0, 0, 0, -, 0]. -/
theorem claim_C9_counterexample :
    buildStaffExportTable [] =
      [headerRow,
       [Cell.str (cs "合计"), Cell.str (cs "-"), Cell.num 0, Cell.num 0,
        Cell.num 0, Cell.str (cs "-"), Cell.num 0]] ∧
    Cell.str (cs "合计") ≠ Cell.str (cs "-") := by
  refine ⟨rfl, ?_⟩
  decide

/-- Claim C9, amended: the export table is the seven-column header row,
followed by exactly one row per stat entry (staff id, service name, counts,
money, the refusal text — the kept refusal types joined with their counts,
or the "无拒接" text when none are kept — and salary), followed by one
trailing totals row whose count, transaction, money and salary cells are the
column sums; its remaining cells are the "合计" label and "-" for the two
other non-summable columns. -/
theorem claim_C9_amended (stats : List StaffStat) :
    buildStaffExportTable stats =
      headerRow :: (stats.map statRow ++
        [[Cell.str (cs "合计"), Cell.str (cs "-"),
          Cell.num (stats.map StaffStat.totalCount).sum,
          Cell.num (stats.map (fun s => (s.transactionCount : Int))).sum,
          Cell.num (stats.map StaffStat.totalMoney).sum, Cell.str (cs "-"),
          Cell.num (stats.map StaffStat.salary).sum]]) ∧
    headerRow.length = 7 ∧
    (buildStaffExportTable stats).length = stats.length + 2 ∧
    (∀ s : StaffStat,
      statRow s = [Cell.str s.staffId, Cell.str s.serviceName,
        Cell.num s.totalCount, Cell.num (s.transactionCount : Int),
        Cell.num s.totalMoney, Cell.str (refusalText s), Cell.num s.salary] ∧
      (statRow s).length = 7) ∧
    (∀ s : StaffStat,
      (s.refusalSummary.filter (fun kv => decide (kv.1 ≠ noRefusal)) = [] →
        refusalText s = noRefusal) ∧
      (s.refusalSummary.filter (fun kv => decide (kv.1 ≠ noRefusal)) ≠ [] →
        refusalText s =
          joinSep (cs "，")
            ((s.refusalSummary.filter (fun kv => decide (kv.1 ≠ noRefusal))).map
              (fun kv => kv.1 ++ cs "（" ++ jsValChars kv.2 ++ cs " 笔）")))) := by
  refine ⟨buildStaffExportTable_eq stats, rfl, ?_, ?_, ?_⟩
  · rw [buildStaffExportTable_eq stats]
    simp
  · intro s
    exact ⟨rfl, rfl⟩
  · intro s
    exact ⟨refusalText_of_no_kept s, refusalText_of_kept s⟩

/-- Witness for claim C9 at concrete stat entries with and without kept
refusal types. -/
theorem claim_C9_witness :
    refusalText (accumulateRecord c6rec1 (freshStat c6rec1)) = noRefusal ∧
    refusalText c10stat =
      joinSep (cs "，")
        ((c10stat.refusalSummary.filter (fun kv => decide (kv.1 ≠ noRefusal))).map
          (fun kv => kv.1 ++ cs "（" ++ jsValChars kv.2 ++ cs " 笔）")) :=
  ⟨((claim_C9_amended [accumulateRecord c6rec1 (freshStat c6rec1)]).2.2.2.2
      (accumulateRecord c6rec1 (freshStat c6rec1))).1 (by decide),
   ((claim_C9_amended [c10stat]).2.2.2.2 c10stat).2 (by decide)⟩
